import Mathlib

/-!
# Verification of the `stuffed-record-stream` codec and record stream

A shallow embedding, in Lean 4, of the C sources `src/word_stuff.c` and
`src/record_stream.c` of the backtrace-labs stuffed-record-stream library,
together with proofs about the embedded definitions.

Modelling conventions:

* A C byte buffer is a `List Nat` whose elements are byte values (`< 256`);
  `uint8_t` writes performed by the code always produce values `< 256`.
* C pointers into a buffer are modelled as absolute addresses (`Nat`): an
  iterator over a buffer `buf` based at address `B` sees byte `buf[p - B]`
  at address `p`.  `NULL` is address `0`.
* Functions that return a pointer one past the last byte scanned or written
  are modelled as returning offsets / lists; fallible functions return
  `Option`.
* `size_t` / `ssize_t` arithmetic that cannot overflow in the modelled
  states is carried out on `Nat`.
-/

/-! ## Word stuffing codec (`src/word_stuff.c`)

Constants from `word_stuff.c` / `word_stuff.h`:
`RADIX = 0xFD`, the forbidden header sequence is `{ RADIX + 1, RADIX } =
{ 0xFE, 0xFD } = { 254, 253 }`, `CRDB_WORD_STUFF_HEADER_SIZE = 2`,
`MAX_INITIAL_RUN = RADIX - 1 = 252`, and
`MAX_REMAINING_RUN = RADIX * RADIX - 1 = 64008`.
-/

def RADIX : Nat := 253

def MAX_INITIAL_RUN : Nat := RADIX - 1

def MAX_REMAINING_RUN : Nat := RADIX * RADIX - 1

/-- The forbidden 2-byte sequence `{ RADIX + 1, RADIX } = { 0xFE, 0xFD }`,
as written by `crdb_word_stuff_header` (`word_stuff.c:59,124-130`). -/
def word_stuff_header : List Nat := [RADIX + 1, RADIX]

/-- `crdb_word_stuff_header_find` (`word_stuff.c:64-92`): offset of the first
occurrence of the 2-byte header sequence in `data`, or `data.length` if there
is none (the C function returns the pointer `data + num` in that case, and
returns immediately when `num < 2`).  The C code compares 16-bit
little-endian loads against the header word, which on byte values is exactly
the pairwise comparison used here. -/
def crdb_word_stuff_header_find : List Nat → Nat
  | a :: b :: rest =>
    if a = RADIX + 1 ∧ b = RADIX then 0
    else 1 + crdb_word_stuff_header_find (b :: rest)
  | l => l.length

/-- The maximum run length that the current chunk header can encode:
`MAX_INITIAL_RUN` for the 1-byte initial header, `MAX_REMAINING_RUN` for the
2-byte headers of every later chunk. -/
def max_run_size (first_header : Bool) : Nat :=
  if first_header then MAX_INITIAL_RUN else MAX_REMAINING_RUN

/-- The run length computed by one iteration of the encode loop
(`word_stuff.c:256-272`): the offset of the first forbidden sequence within
the next `min (max_run_size first_header) src.length` bytes of `src`
(`next_forbidden - src` in the C code). -/
def encode_run_len (first_header : Bool) (src : List Nat) : Nat :=
  crdb_word_stuff_header_find (src.take (min (max_run_size first_header) src.length))

theorem crdb_word_stuff_header_find_le (l : List Nat) :
    crdb_word_stuff_header_find l ≤ l.length := by
  induction l using crdb_word_stuff_header_find.induct with
  | case1 a b rest h => simp [crdb_word_stuff_header_find, h]
  | case2 a b rest h ih =>
    rw [crdb_word_stuff_header_find, if_neg h]
    simp only [List.length_cons] at ih ⊢
    omega
  | case3 l h => simp [crdb_word_stuff_header_find]

theorem encode_run_len_le (first_header : Bool) (src : List Nat) :
    encode_run_len first_header src ≤ min (max_run_size first_header) src.length := by
  have := crdb_word_stuff_header_find_le
    (src.take (min (max_run_size first_header) src.length))
  simpa [encode_run_len] using this

theorem max_run_size_ge (first_header : Bool) : 252 ≤ max_run_size first_header := by
  cases first_header <;> simp [max_run_size, MAX_INITIAL_RUN, MAX_REMAINING_RUN, RADIX]

/-- The encode loop of `crdb_word_stuff_encode` (`word_stuff.c:226-300`).
Each iteration emits the run-length header (one byte for the first chunk,
two little-endian base-`RADIX` bytes afterwards, cf. `encode_run_size`),
then the literal run.  A run shorter than the maximum is implicitly
terminated by a forbidden sequence, which is consumed from the source
(`CONSUME(CRDB_WORD_STUFF_HEADER_SIZE)`) — unless the source is exhausted,
in which case the terminating sequence was the virtual end-of-input header
and the loop stops. -/
def word_stuff_encode_loop (first_header : Bool) (src : List Nat) : List Nat :=
  (if first_header then [encode_run_len first_header src]
   else [encode_run_len first_header src % RADIX, encode_run_len first_header src / RADIX]) ++
  src.take (encode_run_len first_header src) ++
  (if h1 : encode_run_len first_header src < max_run_size first_header then
    if h2 : (src.drop (encode_run_len first_header src)).length = 0 then []
    else word_stuff_encode_loop false (src.drop (encode_run_len first_header src + 2))
  else word_stuff_encode_loop false (src.drop (encode_run_len first_header src)))
termination_by src.length
decreasing_by
  · simp only [List.length_drop] at h2 ⊢
    omega
  · have hb := encode_run_len_le first_header src
    have hm := max_run_size_ge first_header
    simp only [List.length_drop, Nat.min_def] at hb ⊢
    split at hb <;> omega

/-- `crdb_word_stuff_encode` (`word_stuff.c:226-300`), returning the bytes
written to `dst` (the C function returns a pointer one past them). -/
def crdb_word_stuff_encode (src : List Nat) : List Nat :=
  word_stuff_encode_loop true src

/-- Reading one run-length header in the decode loop: the first header is a
single byte (`run_size = src[0]; CONSUME(1)`, `word_stuff.c:336-344`), later
headers are two little-endian base-`RADIX` bytes (`decode_run_size`,
`word_stuff.c:211-217,345-354`).  Returns `none` when fewer bytes remain
than the header needs (the `src_size < 1` / `src_size <
CRDB_WORD_STUFF_HEADER_SIZE` checks returning `NULL`). -/
def decode_run_header : Bool → List Nat → Option (Nat × List Nat)
  | true, b0 :: tail => some (b0, tail)
  | false, b0 :: b1 :: tail => some (b0 + RADIX * b1, tail)
  | _, _ => none

theorem decode_run_header_length (first_header : Bool) (src : List Nat) (run : Nat)
    (tail : List Nat) (h : decode_run_header first_header src = some (run, tail)) :
    tail.length < src.length := by
  match first_header, src with
  | true, b0 :: t =>
    simp only [decode_run_header, Option.some.injEq, Prod.mk.injEq] at h
    simp [h.2.symm]
  | false, b0 :: b1 :: t =>
    simp only [decode_run_header, Option.some.injEq, Prod.mk.injEq] at h
    simp [h.2.symm]
    omega
  | true, [] => simp [decode_run_header] at h
  | false, [] => simp [decode_run_header] at h
  | false, [b] => simp [decode_run_header] at h

/-- The decode loop of `crdb_word_stuff_decode` (`word_stuff.c:302-386`).
Mirrors the C control flow: read a run header; reject if the remaining
input is shorter than the run or the run exceeds the current maximum
(`src_size < run_size || run_size > max_run_size`); copy the literal run;
when the run is shorter than the maximum, the implicit forbidden sequence
follows: at the end of the input it was the virtual terminator (stop),
otherwise at least a 2-byte header must remain (`src_size <
CRDB_WORD_STUFF_HEADER_SIZE` rejects) and the forbidden sequence is written
to the output before continuing. -/
def word_stuff_decode_loop (first_header : Bool) (src : List Nat) : Option (List Nat) :=
  match h : decode_run_header first_header src with
  | none => none
  | some (run, tail) =>
    if tail.length < run ∨ run > max_run_size first_header then none
    else if run < max_run_size first_header then
      if (tail.drop run).length = 0 then some (tail.take run)
      else if (tail.drop run).length < 2 then none
      else (word_stuff_decode_loop false (tail.drop run)).map
        (fun t => tail.take run ++ (RADIX + 1) :: RADIX :: t)
    else (word_stuff_decode_loop false (tail.drop run)).map
      (fun t => tail.take run ++ t)
termination_by src.length
decreasing_by
  all_goals
    have := decode_run_header_length first_header src run tail h
    simp only [List.length_drop]
    omega

/-- `crdb_word_stuff_decode` (`word_stuff.c:302-386`), returning the bytes
written to `dst` on success (`NULL` becomes `none`). -/
def crdb_word_stuff_decode (src : List Nat) : Option (List Nat) :=
  word_stuff_decode_loop true src

example : crdb_word_stuff_decode (crdb_word_stuff_encode [254, 253, 65]) = some [254, 253, 65] := by
  simp [crdb_word_stuff_encode, crdb_word_stuff_decode, word_stuff_encode_loop,
    word_stuff_decode_loop, encode_run_len, max_run_size, crdb_word_stuff_header_find,
    decode_run_header, MAX_INITIAL_RUN, MAX_REMAINING_RUN, RADIX]

/-- A pair of adjacent bytes forming the forbidden sequence at offset `j`. -/
def pair_at (l : List Nat) (j : Nat) : Prop :=
  l[j]? = some (RADIX + 1) ∧ l[j + 1]? = some RADIX

/-! ### Characterisation of `crdb_word_stuff_header_find` -/

theorem getElem?_some_lt {l : List Nat} {i a : Nat} (h : l[i]? = some a) : i < l.length :=
  (List.getElem?_eq_some_iff.mp h).1

theorem header_find_found (l : List Nat)
    (h : crdb_word_stuff_header_find l < l.length) :
    l[crdb_word_stuff_header_find l]? = some (RADIX + 1) ∧
      l[crdb_word_stuff_header_find l + 1]? = some RADIX := by
  induction l using crdb_word_stuff_header_find.induct with
  | case1 a b rest hab =>
    rw [crdb_word_stuff_header_find, if_pos hab] at h ⊢
    simp [hab.1, hab.2]
  | case2 a b rest hab ih =>
    rw [crdb_word_stuff_header_find, if_neg hab] at h ⊢
    have hlt : crdb_word_stuff_header_find (b :: rest) < (b :: rest).length := by
      simp only [List.length_cons] at h ⊢
      omega
    have := ih hlt
    simpa [Nat.add_comm 1 (crdb_word_stuff_header_find (b :: rest))] using this
  | case3 l hshape =>
    exfalso
    rw [crdb_word_stuff_header_find] at h
    · omega
    · intro a b rest hab
      exact hshape a b rest hab

theorem header_find_min (l : List Nat) (j : Nat)
    (h : j < crdb_word_stuff_header_find l) :
    ¬(l[j]? = some (RADIX + 1) ∧ l[j + 1]? = some RADIX) := by
  induction l using crdb_word_stuff_header_find.induct generalizing j with
  | case1 a b rest hab =>
    rw [crdb_word_stuff_header_find, if_pos hab] at h
    omega
  | case2 a b rest hab ih =>
    rw [crdb_word_stuff_header_find, if_neg hab] at h
    match j with
    | 0 =>
      intro hpair
      simp only [List.getElem?_cons_zero, List.getElem?_cons_succ, Option.some.injEq] at hpair
      exact hab hpair
    | k + 1 =>
      have := ih k (by omega)
      simpa using this
  | case3 l hshape =>
    match l with
    | [] => simp
    | [x] =>
      intro hpair
      rcases hpair with ⟨_, hb⟩
      simp at hb
    | a :: b :: rest => exact absurd rfl (hshape a b rest)

/-! ### Facts about `encode_run_len` -/

theorem encode_run_len_found (first_header : Bool) (src : List Nat)
    (h1 : encode_run_len first_header src < max_run_size first_header)
    (h2 : encode_run_len first_header src < src.length) :
    src[encode_run_len first_header src]? = some (RADIX + 1) ∧
      src[encode_run_len first_header src + 1]? = some RADIX := by
  set n := min (max_run_size first_header) src.length with hn
  set w := src.take n with hw
  have hwl : w.length = n := by
    simp [hw, hn]
  have hlt : crdb_word_stuff_header_find w < w.length := by
    rw [hwl]
    have : encode_run_len first_header src < n := by omega
    simpa [encode_run_len, ← hn, ← hw] using this
  have hfound := header_find_found w hlt
  have hrun : crdb_word_stuff_header_find w = encode_run_len first_header src := by
    simp [encode_run_len, ← hn, ← hw]
  rw [hrun] at hfound hlt
  have hidx1 : encode_run_len first_header src + 1 < n := by
    have := getElem?_some_lt hfound.2
    omega
  constructor
  · have := hfound.1
    rwa [hw, List.getElem?_take, if_pos (by omega)] at this
  · have := hfound.2
    rwa [hw, List.getElem?_take, if_pos hidx1] at this

theorem encode_run_len_min (first_header : Bool) (src : List Nat) (j : Nat)
    (h : j + 1 < encode_run_len first_header src) :
    ¬(src[j]? = some (RADIX + 1) ∧ src[j + 1]? = some RADIX) := by
  set n := min (max_run_size first_header) src.length with hn
  set w := src.take n with hw
  have hrun : crdb_word_stuff_header_find w = encode_run_len first_header src := by
    simp [encode_run_len, ← hn, ← hw]
  have hle : encode_run_len first_header src ≤ n := by
    have := encode_run_len_le first_header src
    omega
  have hmin := header_find_min w j (by omega)
  rw [hw, List.getElem?_take, if_pos (by omega), List.getElem?_take, if_pos (by omega)] at hmin
  exact hmin

/-! ### Round trip: decode ∘ encode = id (claim C1) -/

theorem encode_loop_false_length (src : List Nat) :
    2 ≤ (word_stuff_encode_loop false src).length := by
  rw [word_stuff_encode_loop]
  simp

theorem decode_run_header_of_encode (first_header : Bool) (run : Nat) (rest : List Nat)
    (hrun : run ≤ max_run_size first_header) :
    decode_run_header first_header
      ((if first_header then [run] else [run % RADIX, run / RADIX]) ++ rest) =
      some (run, rest) := by
  cases first_header with
  | true => simp [decode_run_header]
  | false =>
    simp only [if_neg Bool.false_ne_true, List.cons_append, List.nil_append, decode_run_header,
      Option.some.injEq, Prod.mk.injEq, and_true]
    exact Nat.mod_add_div run RADIX

theorem word_stuff_decode_loop_eq (first_header : Bool) (src : List Nat) (run : Nat)
    (tail : List Nat) (h : decode_run_header first_header src = some (run, tail)) :
    word_stuff_decode_loop first_header src =
      if tail.length < run ∨ run > max_run_size first_header then none
      else if run < max_run_size first_header then
        if (tail.drop run).length = 0 then some (tail.take run)
        else if (tail.drop run).length < 2 then none
        else (word_stuff_decode_loop false (tail.drop run)).map
          (fun t => tail.take run ++ (RADIX + 1) :: RADIX :: t)
      else (word_stuff_decode_loop false (tail.drop run)).map
        (fun t => tail.take run ++ t) := by
  rw [word_stuff_decode_loop]
  split
  · rename_i heq
    rw [h] at heq
    cases heq
  · rename_i run' tail' heq
    rw [h] at heq
    cases heq
    rfl

theorem word_stuff_decode_encode_loop (first_header : Bool) (src : List Nat) :
    word_stuff_decode_loop first_header (word_stuff_encode_loop first_header src) =
      some src := by
  induction first_header, src using word_stuff_encode_loop.induct with
  | case1 first src ih1 ih2 =>
    have hle := encode_run_len_le first src
    by_cases h1 : encode_run_len first src < max_run_size first
    · by_cases h2 : (src.drop (encode_run_len first src)).length = 0
      · -- terminal chunk: the whole remaining source is one short run
        have hlen : src.length = encode_run_len first src := by
          simp only [List.length_drop] at h2
          omega
        rw [word_stuff_encode_loop, dif_pos h1, dif_pos h2, List.append_nil]
        rw [word_stuff_decode_loop_eq first _ (encode_run_len first src)
          (src.take (encode_run_len first src)) (decode_run_header_of_encode first _ _ (by omega))]
        have hlits : (src.take (encode_run_len first src)).length = encode_run_len first src := by
          simp
          omega
        have htake : src.take (encode_run_len first src) = src := by
          apply List.take_of_length_le
          omega
        rw [if_neg (by simp only [hlits]; omega), if_pos h1]
        rw [if_pos (by simp only [List.length_drop, hlits]; omega)]
        rw [List.take_take]
        simp only [Nat.min_self]
        rw [htake]
      · -- middle chunk: a short run followed by a real forbidden sequence
        have ih := ih1 h2
        have hlt : encode_run_len first src < src.length := by
          simp only [List.length_drop] at h2
          omega
        have hfound := encode_run_len_found first src h1 hlt
        have hlt1 : encode_run_len first src + 1 < src.length := by
          have := getElem?_some_lt hfound.2
          omega
        rw [word_stuff_encode_loop, dif_pos h1, dif_neg h2]
        rw [List.append_assoc]
        rw [word_stuff_decode_loop_eq first _ (encode_run_len first src) _
          (decode_run_header_of_encode first _ _ (by omega))]
        have hlits : (src.take (encode_run_len first src)).length = encode_run_len first src := by
          simp
          omega
        rw [if_neg (by simp only [List.length_append, hlits]; omega), if_pos h1]
        rw [List.drop_left' hlits]
        have he2 := encode_loop_false_length (src.drop (encode_run_len first src + 2))
        rw [if_neg (by omega), if_neg (by omega)]
        rw [ih, Option.map_some', List.take_left' hlits]
        -- reassemble the source around the forbidden sequence found at the run end
        have h254 : src[encode_run_len first src] = RADIX + 1 := by
          have := hfound.1
          rwa [List.getElem?_eq_getElem hlt, Option.some.injEq] at this
        have h253 : src[encode_run_len first src + 1] = RADIX := by
          have := hfound.2
          rwa [List.getElem?_eq_getElem hlt1, Option.some.injEq] at this
        have hsplit : src = src.take (encode_run_len first src) ++
            (RADIX + 1) :: RADIX :: src.drop (encode_run_len first src + 2) := by
          conv_lhs => rw [← List.take_append_drop (encode_run_len first src) src]
          congr 1
          rw [List.drop_eq_getElem_cons hlt, h254]
          congr 1
          rw [List.drop_eq_getElem_cons hlt1, h253]
        conv_rhs => rw [hsplit]
    · -- maximal run: no implicit forbidden sequence is consumed
      have ih := ih2 h1
      rw [word_stuff_encode_loop, dif_neg h1]
      rw [List.append_assoc]
      rw [word_stuff_decode_loop_eq first _ (encode_run_len first src) _
        (decode_run_header_of_encode first _ _ (by omega))]
      have hlits : (src.take (encode_run_len first src)).length = encode_run_len first src := by
        simp
        omega
      rw [if_neg (by simp only [List.length_append, hlits]; omega), if_neg h1]
      rw [List.drop_left' hlits]
      rw [ih, Option.map_some', List.take_left' hlits, List.take_append_drop]


/-! ### Marker-free encoding (claim C2) -/

theorem header_find_eq_length_of_no_pair (l : List Nat)
    (h : ∀ j, ¬pair_at l j) : crdb_word_stuff_header_find l = l.length := by
  have hle := crdb_word_stuff_header_find_le l
  by_contra hne
  have hlt : crdb_word_stuff_header_find l < l.length := by omega
  exact h _ (header_find_found l hlt)

theorem no_pair_append (xs ys : List Nat)
    (hxs : ∀ j, j + 1 < xs.length → ¬pair_at xs j)
    (hys : ∀ j, ¬pair_at ys j)
    (hbd : ∀ x y, xs[xs.length - 1]? = some x → ys[0]? = some y →
      ¬(x = RADIX + 1 ∧ y = RADIX)) :
    ∀ j, ¬pair_at (xs ++ ys) j := by
  intro j hpair
  rcases hpair with ⟨hx, hy⟩
  rcases Nat.lt_or_ge (j + 1) xs.length with hc | hc
  · refine hxs j hc ⟨?_, ?_⟩
    · rwa [List.getElem?_append_left (by omega)] at hx
    · rwa [List.getElem?_append_left hc] at hy
  · rcases Nat.lt_or_ge j xs.length with hd | hd
    · -- the pair straddles the boundary: j = xs.length - 1
      have hj : j = xs.length - 1 := by omega
      have hx' : xs[xs.length - 1]? = some (RADIX + 1) := by
        rwa [List.getElem?_append_left (by omega), hj] at hx
      have hy' : ys[0]? = some RADIX := by
        rw [List.getElem?_append_right (by omega)] at hy
        have : j + 1 - xs.length = 0 := by omega
        rwa [this] at hy
      exact hbd _ _ hx' hy' ⟨rfl, rfl⟩
    · refine hys (j - xs.length) ⟨?_, ?_⟩
      · rwa [List.getElem?_append_right hd] at hx
      · rw [List.getElem?_append_right (by omega)] at hy
        have : j + 1 - xs.length = j - xs.length + 1 := by omega
        rwa [this] at hy

/-- The first byte emitted by any non-initial chunk is a base-`RADIX` digit. -/
theorem encode_loop_false_head (src : List Nat) :
    (word_stuff_encode_loop false src)[0]? = some (encode_run_len false src % RADIX) := by
  rw [word_stuff_encode_loop]
  simp

theorem no_pair_encode_loop (first_header : Bool) (src : List Nat) :
    ∀ j, ¬pair_at (word_stuff_encode_loop first_header src) j := by
  induction first_header, src using word_stuff_encode_loop.induct with
  | case1 first src ih1 ih2 =>
    have hle := encode_run_len_le first src
    rw [word_stuff_encode_loop, List.append_assoc]
    have hlits : (src.take (encode_run_len first src)).length = encode_run_len first src := by
      simp
      omega
    -- pairs cannot occur inside the literal run
    have hlit_pairs : ∀ j, j + 1 < (src.take (encode_run_len first src)).length →
        ¬pair_at (src.take (encode_run_len first src)) j := by
      intro j hj hpair
      rcases hpair with ⟨ha, hb⟩
      rw [hlits] at hj
      rw [List.getElem?_take, if_pos (by omega)] at ha
      rw [List.getElem?_take, if_pos (by omega)] at hb
      exact encode_run_len_min first src j hj ⟨ha, hb⟩
    -- the suffix after the literal run is marker free and does not start with RADIX
    have hsuffix : ∀ tail, (tail = [] ∨
        (∃ rest, tail = word_stuff_encode_loop false rest ∧ ∀ j, ¬pair_at tail j)) →
        (∀ j, ¬pair_at (src.take (encode_run_len first src) ++ tail) j) := by
      intro tail htail
      refine no_pair_append _ _ hlit_pairs ?_ ?_
      · rcases htail with rfl | ⟨rest, rfl, hnp⟩
        · intro j hpair
          rcases hpair with ⟨ha, _⟩
          simp at ha
        · exact hnp
      · rcases htail with rfl | ⟨rest, rfl, hnp⟩
        · intro x y hx hy
          simp at hy
        · intro x y hx hy
          rw [encode_loop_false_head rest, Option.some.injEq] at hy
          have : y < RADIX := by
            rw [← hy]
            exact Nat.mod_lt _ (by simp [RADIX])
          omega
    -- dispatch on the three shapes of the suffix
    have hinner : ∀ j, ¬pair_at (src.take (encode_run_len first src) ++
        (if h1 : encode_run_len first src < max_run_size first then
          if h2 : (src.drop (encode_run_len first src)).length = 0 then []
          else word_stuff_encode_loop false (src.drop (encode_run_len first src + 2))
        else word_stuff_encode_loop false (src.drop (encode_run_len first src)))) j := by
      by_cases h1 : encode_run_len first src < max_run_size first
      · by_cases h2 : (src.drop (encode_run_len first src)).length = 0
        · rw [dif_pos h1, dif_pos h2]
          exact hsuffix [] (Or.inl rfl)
        · rw [dif_pos h1, dif_neg h2]
          exact hsuffix _ (Or.inr ⟨_, rfl, ih1 h2⟩)
      · rw [dif_neg h1]
        exact hsuffix _ (Or.inr ⟨_, rfl, ih2 h1⟩)
    -- prepend the run-size field, whose bytes are all below RADIX + 1
    refine no_pair_append _ _ ?_ hinner ?_
    · intro j hj hpair
      rcases hpair with ⟨ha, hb⟩
      by_cases hf : first = true
      · rw [hf] at hj
        simp at hj
      · have hf' : first = false := by
          cases first
          · rfl
          · exact absurd rfl hf
        rw [hf'] at hj ha hb
        simp only [if_neg Bool.false_ne_true, List.length_cons, List.length_nil] at hj
        have hj0 : j = 0 := by omega
        rw [hj0] at ha
        simp only [if_neg Bool.false_ne_true, List.getElem?_cons_zero, Option.some.injEq] at ha
        have : encode_run_len false src % RADIX < RADIX := Nat.mod_lt _ (by simp [RADIX])
        omega
    · intro x y hx hy hxy
      -- every byte of the run-size field is at most RADIX - 1 < RADIX + 1
      have hxlt : x ≤ 252 := by
        by_cases hf : first = true
        · rw [hf] at hx
          simp [RADIX] at hx
          have h252 := encode_run_len_le true src
          simp [max_run_size, MAX_INITIAL_RUN, RADIX] at h252
          omega
        · have hf' : first = false := by
            cases first
            · rfl
            · exact absurd rfl hf
          rw [hf'] at hx
          simp [RADIX] at hx
          have h64 := encode_run_len_le false src
          simp [max_run_size, MAX_REMAINING_RUN, RADIX] at h64
          have : encode_run_len false src / RADIX < RADIX := by
            apply Nat.div_lt_of_lt_mul
            simp [RADIX]
            omega
          simp [RADIX] at this
          omega
      simp [RADIX] at hxy
      omega

/-! ## CRC-32C (`record_stream.c:84-101`)

`crdb_crc32c` consumes the buffer four bytes at a time with `_mm_crc32_u32`
and finishes byte by byte with `_mm_crc32_u8`, starting from the accumulator
`acc = 0`.  The x86 `crc32` instruction family computes the bit-reflected
CRC-32C: in its standard software form, each input byte is XORed into the
low byte of the accumulator, which is then shifted right eight times,
conditionally XORing the reflected Castagnoli polynomial `0x82F63B78`
(the bit reversal of `0x1EDC6F41`); a 32-bit operand is processed as its
four bytes in little-endian (low byte first) order, matching the `memcpy`
load in the C code.  There is no pre- or post-inversion in the instruction
itself. -/

def CRC32C_POLY_REFLECTED : Nat := 0x82F63B78

/-- One shift-and-conditionally-XOR step of the reflected CRC. -/
def crc32c_round (acc : Nat) : Nat :=
  if acc % 2 = 1 then (acc / 2) ^^^ CRC32C_POLY_REFLECTED else acc / 2

def crc32c_rounds : Nat → Nat → Nat
  | 0, acc => acc
  | n + 1, acc => crc32c_rounds n (crc32c_round acc)

/-- `_mm_crc32_u8`: architectural semantics in standard software form. -/
def mm_crc32_u8 (acc b : Nat) : Nat :=
  crc32c_rounds 8 ((acc % 2 ^ 32) ^^^ (b % 256))

/-- `_mm_crc32_u32`: the 32-bit operand is processed as its four
little-endian bytes. -/
def mm_crc32_u32 (acc w : Nat) : Nat :=
  mm_crc32_u8 (mm_crc32_u8 (mm_crc32_u8 (mm_crc32_u8 acc (w % 256))
    (w / 256 % 256)) (w / 65536 % 256)) (w / 16777216 % 256)

/-- The loop structure of `crdb_crc32c` (`record_stream.c:84-101`): whole
`uint32_t` words first (loaded with `memcpy`, i.e. little-endian on x86),
then the remaining bytes one at a time. -/
def crc32c_loop (acc : Nat) : List Nat → Nat
  | b0 :: b1 :: b2 :: b3 :: rest =>
    crc32c_loop (mm_crc32_u32 acc (b0 + 256 * b1 + 65536 * b2 + 16777216 * b3)) rest
  | rest => rest.foldl mm_crc32_u8 acc

/-- `crdb_crc32c` (`record_stream.c:84-101`): note the accumulator starts
at `0`. -/
def crdb_crc32c (buf : List Nat) : Nat := crc32c_loop 0 buf

/-- Reference definition following the spec's words for claim C8: "the
Castagnoli CRC of `b` started from accumulator `init` with no output
inversion" — the plain bytewise reflected CRC-32C fold from a caller-chosen
initial accumulator value, with no final XOR. -/
def castagnoli_crc32c_from (init : Nat) (buf : List Nat) : Nat :=
  buf.foldl mm_crc32_u8 init

/-! ## Record envelope (`record_stream.c:50-65,106-143,527-534`) -/

def CRDB_RECORD_STREAM_MAX_LEN : Nat := 512

def CRDB_RECORD_STREAM_BUF_LEN : Nat := 2 * CRDB_RECORD_STREAM_MAX_LEN

/-- `CRC_INITIAL_VALUE = (uint32_t)-1` (`record_stream.c:50`). -/
def CRC_INITIAL_VALUE : Nat := 2 ^ 32 - 1

/-- The four little-endian bytes of a 32-bit value, as laid out in memory
for a `uint32_t` struct field on x86 (host byte order). -/
def le32 (x : Nat) : List Nat :=
  [x % 256, x / 256 % 256, x / 65536 % 256, x / 16777216 % 256]

/-- Reading a `uint32_t` back from (at least) four little-endian bytes. -/
def read_u32 (l : List Nat) : Nat :=
  l.getD 0 0 + 256 * l.getD 1 0 + 65536 * l.getD 2 0 + 16777216 * l.getD 3 0

/-- The packing step of `encode_record` (`record_stream.c:122-124`): the
`struct record_header { uint32_t crc; uint32_t generation; }` is followed by
the payload bytes; the `crc` field is set to `CRC_INITIAL_VALUE`, the CRC is
computed over the whole record, and the result overwrites the `crc`
field. -/
def envelope_pack (generation : Nat) (data : List Nat) : List Nat :=
  le32 (crdb_crc32c (le32 CRC_INITIAL_VALUE ++ le32 generation ++ data)) ++
    le32 generation ++ data

/-- `crc_matches` (`record_stream.c:527-534`): save the stored `crc` field,
reset it to `CRC_INITIAL_VALUE`, recompute over `total_len` bytes and
compare. -/
def crc_matches (record : List Nat) : Bool :=
  read_u32 (record.take 4) == crdb_crc32c (le32 CRC_INITIAL_VALUE ++ record.drop 4)

/-- Envelope verification as performed on the read side: the decoded-length
check `decoded_len < sizeof(dst->header)` of
`record_stream_iterator_next_record` (`record_stream.c:625-627`), the CRC
comparison of `crc_matches` (`record_stream.c:527-534`), and the extraction
of `generation` and the payload from the `read_record` struct in
`crdb_record_stream_iterator_next_buf` (`record_stream.c:673-676`). -/
def envelope_verify (record : List Nat) : Option (Nat × List Nat) :=
  if record.length < 8 then none
  else if crc_matches record then
    some (read_u32 ((record.drop 4).take 4), record.drop 8)
  else none

/-- `encode_record` (`record_stream.c:106-143`): reject oversized payloads,
pack the envelope, word-stuff it, and append a trailing header for the next
record (`crdb_word_stuff_header(write_ptr)`). -/
def encode_record (generation : Nat) (data : List Nat) : Option (List Nat) :=
  if data.length > CRDB_RECORD_STREAM_MAX_LEN then none
  else some (crdb_word_stuff_encode (envelope_pack generation data) ++ word_stuff_header)

/-- `crdb_record_stream_append_buf` (`record_stream.c:326-339`), with the
regular file contents as explicit state.  The `len > CRDB_RECORD_STREAM_MAX_LEN`
check happens before any system call or buffer copy; on the happy path the
encoded record is appended to the end of the file (`O_APPEND` gather write,
`append_to_fd`, `record_stream.c:151-231`).  Short-write retries are I/O
behaviour outside this model. -/
def crdb_record_stream_append_buf (file : List Nat) (generation : Nat)
    (buf : List Nat) : Bool × List Nat :=
  if buf.length > CRDB_RECORD_STREAM_MAX_LEN then (false, file)
  else match encode_record generation buf with
    | none => (false, file)
    | some enc => (true, file ++ enc)

/-! ## Record stream iterator (`record_stream.c:398-678`)

The iterator fields are pointers into a read-only memory region; they are
modelled as absolute addresses.  An iterator over the byte list `buf` based
at address `base` reads the byte `buf[p - base]` at address `p`.  The
`mapped` / `map_size` fields (resources of the fd-based constructor) are
omitted; `header` is carried since the C code stores it in the struct. -/

def CRDB_WORD_STUFF_HEADER_SIZE : Nat := 2

structure crdb_record_stream_iterator where
  cursor : Nat
  endp : Nat
  stop_at : Nat
  begin : Nat
  header : Nat
  first_record : Bool
  first_nonzero : Nat
deriving DecidableEq

/-- `crdb_record_stream_iterator_init_buf` (`record_stream.c:398-412`) for a
`size`-byte buffer at address `buf`; the zero-initialised fields (`header`,
from the designated-initialiser form) are `NULL = 0`. -/
def crdb_record_stream_iterator_init_buf (buf : Nat) (size : Nat) :
    crdb_record_stream_iterator :=
  { cursor := buf, endp := buf + size, stop_at := buf + size, begin := buf,
    header := 0, first_record := true, first_nonzero := buf }

/-- `crdb_record_stream_iterator_locate_at` (`record_stream.c:490-513`). -/
def crdb_record_stream_iterator_locate_at (it : crdb_record_stream_iterator)
    (start_offset : Nat) : Bool × crdb_record_stream_iterator :=
  if start_offset < it.first_nonzero - it.begin ∨
      start_offset > it.stop_at - it.begin then
    (false, it)
  else if start_offset = it.first_nonzero - it.begin then
    (true, { it with first_record := true, cursor := it.first_nonzero })
  else
    (true, { it with first_record := false, cursor := it.begin + start_offset })

/-- `crdb_record_stream_iterator_stop_at` (`record_stream.c:515-525`). -/
def crdb_record_stream_iterator_stop_at (it : crdb_record_stream_iterator)
    (stop_offset : Nat) : crdb_record_stream_iterator :=
  if stop_offset > it.endp - it.begin then it
  else { it with stop_at := it.begin + stop_offset }

/-- The `num` bytes of memory starting at address `ptr` (for the buffer
`buf` based at `base`), as passed to `crdb_word_stuff_header_find` and
`crdb_word_stuff_decode`. -/
def mem_bytes (base : Nat) (buf : List Nat) (ptr num : Nat) : List Nat :=
  (buf.drop (ptr - base)).take num

/-- A call `crdb_word_stuff_header_find(ptr, num)` returning its result as
an absolute address (the C function returns `ptr + offset`). -/
def header_find_at (base : Nat) (buf : List Nat) (ptr num : Nat) : Nat :=
  ptr + crdb_word_stuff_header_find (mem_bytes base buf ptr num)

inductive next_record_result where
  | ok (decoded : List Nat)
  | fail
  | assert_violation
deriving DecidableEq

/-- The part of `record_stream_iterator_next_record` that runs once the
candidate header has been located (`record_stream.c:576-633`): bail out
(`goto eof`) if the record's first byte is at or past `stop_at`; find the
next header, which delimits the encoded bytes and becomes the new cursor;
reject oversized candidates, undecodable candidates, too-short decodes and
CRC mismatches; otherwise yield the decoded record. -/
def next_record_core (base : Nat) (buf : List Nat)
    (it : crdb_record_stream_iterator) (encoded_data : Nat) :
    crdb_record_stream_iterator × next_record_result :=
  if it.header ≥ it.stop_at then
    ({ it with cursor := it.endp }, .fail)
  else
    let next_header := header_find_at base buf encoded_data (it.endp - encoded_data)
    let encoded_len := next_header - encoded_data
    if encoded_len > CRDB_RECORD_STREAM_BUF_LEN then
      ({ it with cursor := next_header }, .fail)
    else
      match crdb_word_stuff_decode (mem_bytes base buf encoded_data encoded_len) with
      | none => ({ it with cursor := next_header }, .fail)
      | some decoded =>
        if decoded.length < 8 then ({ it with cursor := next_header }, .fail)
        else if crc_matches decoded then ({ it with cursor := next_header }, .ok decoded)
        else ({ it with cursor := next_header }, .fail)

/-- `record_stream_iterator_next_record` (`record_stream.c:543-634`).  For
the first record the encoded bytes begin at the cursor itself; otherwise
the next header is located (scanning up to `end`, with `end - cursor`
computed as in C — `0` in the states the code reaches), `goto eof` fires
when it lies at or past `stop_at`, and the record's encoded bytes begin two
bytes after the header.  The C code then asserts
`encoded_data <= it->end`; the model surfaces a violated assertion as
`assert_violation` (with `NDEBUG`, the code would instead compute the
scan size `it->end - encoded_data` as a huge unsigned value and read out
of bounds). -/
def record_stream_iterator_next_record (base : Nat) (buf : List Nat)
    (it : crdb_record_stream_iterator) :
    crdb_record_stream_iterator × next_record_result :=
  if it.first_record then
    next_record_core base buf
      { it with first_record := false, header := it.cursor } it.cursor
  else
    let first_header := header_find_at base buf it.cursor (it.endp - it.cursor)
    if first_header ≥ it.stop_at then
      ({ it with cursor := it.endp }, .fail)
    else if first_header + CRDB_WORD_STUFF_HEADER_SIZE ≤ it.endp then
      next_record_core base buf { it with header := first_header }
        (first_header + CRDB_WORD_STUFF_HEADER_SIZE)
    else
      ({ it with header := first_header }, .assert_violation)

/-- Well-founded measure for the scan loop of
`record_stream_iterator_next`: the distance from the cursor to `stop_at`,
with one extra step allowed while `first_record` is still set. -/
def iter_measure (it : crdb_record_stream_iterator) : Nat :=
  2 * (it.stop_at - it.cursor) + (if it.first_record then 1 else 0)

theorem header_find_at_ge (base : Nat) (buf : List Nat) (ptr num : Nat) :
    ptr ≤ header_find_at base buf ptr num := by
  simp [header_find_at]

theorem header_find_at_le (base : Nat) (buf : List Nat) (ptr num : Nat) :
    header_find_at base buf ptr num ≤ ptr + num := by
  have h := crdb_word_stuff_header_find_le (mem_bytes base buf ptr num)
  have hlen : (mem_bytes base buf ptr num).length ≤ num := by
    simp [mem_bytes]
  simp only [header_find_at]
  omega

theorem next_record_progress (base : Nat) (buf : List Nat)
    (it it' : crdb_record_stream_iterator) (r : next_record_result)
    (hg : it.cursor < it.stop_at)
    (h : record_stream_iterator_next_record base buf it = (it', r))
    (hr : r ≠ next_record_result.assert_violation) :
    iter_measure it' < iter_measure it := by
  unfold record_stream_iterator_next_record at h
  by_cases hfr : it.first_record
  · rw [if_pos hfr] at h
    unfold next_record_core at h
    rw [if_neg (by simp; omega)] at h
    simp only at h
    have hnh := header_find_at_ge base buf it.cursor
      (it.endp - it.cursor)
    split at h
    · injection h with hi hres
      subst hi
      simp [iter_measure, hfr]
      omega
    · split at h
      · injection h with hi hres
        subst hi
        simp [iter_measure, hfr]
        omega
      · split at h
        · injection h with hi hres
          subst hi
          simp [iter_measure, hfr]
          omega
        · split at h
          · injection h with hi hres
            subst hi
            simp [iter_measure, hfr]
            omega
          · injection h with hi hres
            subst hi
            simp [iter_measure, hfr]
            omega
  · rw [if_neg hfr] at h
    simp only at h
    have hfh := header_find_at_ge base buf it.cursor (it.endp - it.cursor)
    have hfh2 := header_find_at_le base buf it.cursor (it.endp - it.cursor)
    split at h
    · -- goto eof: no header before stop_at
      rename_i heof
      injection h with hi hres
      subst hi
      simp only [iter_measure]
      simp only [if_neg hfr]
      have hend : it.stop_at ≤ it.endp := by omega
      omega
    · split at h
      · -- a candidate header was found before stop_at
        rename_i heof hasrt
        unfold next_record_core at h
        simp only at h
        rw [if_neg (by simp; omega)] at h
        have hnh := header_find_at_ge base buf
          (header_find_at base buf it.cursor (it.endp - it.cursor) +
            CRDB_WORD_STUFF_HEADER_SIZE)
          (it.endp - (header_find_at base buf it.cursor (it.endp - it.cursor) +
            CRDB_WORD_STUFF_HEADER_SIZE))
        have hhs : CRDB_WORD_STUFF_HEADER_SIZE = 2 := rfl
        split at h
        · injection h with hi hres
          subst hi
          simp [iter_measure, hfr]
          omega
        · split at h
          · injection h with hi hres
            subst hi
            simp [iter_measure, hfr]
            omega
          · split at h
            · injection h with hi hres
              subst hi
              simp [iter_measure, hfr]
              omega
            · split at h
              · injection h with hi hres
                subst hi
                simp [iter_measure, hfr]
                omega
              · injection h with hi hres
                subst hi
                simp [iter_measure, hfr]
                omega
      · injection h with hi hres
        subst hi
        subst hres
        exact absurd rfl hr

inductive next_result where
  | ok (decoded : List Nat)
  | eof
  | assert_violation
deriving DecidableEq

/-- `record_stream_iterator_next` (`record_stream.c:641-657`): loop while
the cursor is below `stop_at`, retrying after every rejected candidate.
When the loop exits, the C code sets `it->cursor = NULL; it->end = NULL`
(i.e. address `0`) before signalling end of stream. -/
def record_stream_iterator_next (base : Nat) (buf : List Nat)
    (it : crdb_record_stream_iterator) :
    crdb_record_stream_iterator × next_result :=
  if hg : it.cursor < it.stop_at then
    match h2 : record_stream_iterator_next_record base buf it with
    | (it', .ok decoded) => (it', .ok decoded)
    | (it', .fail) => record_stream_iterator_next base buf it'
    | (it', .assert_violation) => (it', .assert_violation)
  else
    ({ it with cursor := 0, endp := 0 }, .eof)
termination_by iter_measure it
decreasing_by
  exact next_record_progress base buf it it' next_record_result.fail hg h2 (by decide)

theorem next_eq_of_stop (base : Nat) (buf : List Nat)
    (it : crdb_record_stream_iterator) (h : ¬it.cursor < it.stop_at) :
    record_stream_iterator_next base buf it =
      ({ it with cursor := 0, endp := 0 }, next_result.eof) := by
  rw [record_stream_iterator_next, dif_neg h]

theorem next_eq_of_ok (base : Nat) (buf : List Nat)
    (it it' : crdb_record_stream_iterator) (d : List Nat)
    (hg : it.cursor < it.stop_at)
    (h2 : record_stream_iterator_next_record base buf it = (it', next_record_result.ok d)) :
    record_stream_iterator_next base buf it = (it', next_result.ok d) := by
  rw [record_stream_iterator_next, dif_pos hg]
  split
  · rename_i it2 d2 heq
    rw [h2] at heq
    injection heq with ha hb
    injection hb with hc
    subst ha
    subst hc
    rfl
  · rename_i it2 heq
    rw [h2] at heq
    injection heq with ha hb
    cases hb
  · rename_i it2 heq
    rw [h2] at heq
    injection heq with ha hb
    cases hb

theorem next_eq_of_fail (base : Nat) (buf : List Nat)
    (it it' : crdb_record_stream_iterator)
    (hg : it.cursor < it.stop_at)
    (h2 : record_stream_iterator_next_record base buf it = (it', next_record_result.fail)) :
    record_stream_iterator_next base buf it = record_stream_iterator_next base buf it' := by
  rw [record_stream_iterator_next, dif_pos hg]
  split
  · rename_i it2 d2 heq
    rw [h2] at heq
    injection heq with ha hb
    cases hb
  · rename_i it2 heq
    rw [h2] at heq
    injection heq with ha hb
    subst ha
    rfl
  · rename_i it2 heq
    rw [h2] at heq
    injection heq with ha hb
    cases hb

theorem next_eq_of_assert (base : Nat) (buf : List Nat)
    (it it' : crdb_record_stream_iterator)
    (hg : it.cursor < it.stop_at)
    (h2 : record_stream_iterator_next_record base buf it =
      (it', next_record_result.assert_violation)) :
    record_stream_iterator_next base buf it = (it', next_result.assert_violation) := by
  rw [record_stream_iterator_next, dif_pos hg]
  split
  · rename_i it2 d2 heq
    rw [h2] at heq
    injection heq with ha hb
    cases hb
  · rename_i it2 heq
    rw [h2] at heq
    injection heq with ha hb
    cases hb
  · rename_i it2 heq
    rw [h2] at heq
    injection heq with ha hb
    subst ha
    rfl

/-- `crdb_record_stream_iterator_next_buf` (`record_stream.c:659-678`):
`*generation` and `*len` are zeroed first; on success they are overwritten
with the record's generation and payload size, and `memcpy(dst, buf.data,
payload_size)` overwrites exactly the first `payload_size` bytes of the
caller's buffer.  The returned tuple is
`(iterator, returned bool, *generation, dst, *len)`; `none` models the
aborting / out-of-bounds executions of the modelled assert. -/
def crdb_record_stream_iterator_next_buf (base : Nat) (buf : List Nat)
    (it : crdb_record_stream_iterator) (dst : List Nat) :
    Option (crdb_record_stream_iterator × Bool × Nat × List Nat × Nat) :=
  match record_stream_iterator_next base buf it with
  | (it', .ok decoded) =>
    some (it', true, read_u32 ((decoded.drop 4).take 4),
      decoded.drop 8 ++ dst.drop (decoded.length - 8), decoded.length - 8)
  | (it', .eof) => some (it', false, 0, dst, 0)
  | (_, .assert_violation) => none

theorem next_ok_progress (base : Nat) (buf : List Nat)
    (it it' : crdb_record_stream_iterator) (d : List Nat)
    (h : record_stream_iterator_next base buf it = (it', next_result.ok d)) :
    iter_measure it' < iter_measure it := by
  induction it using record_stream_iterator_next.induct base buf with
  | case1 it hg it2 d2 h2 =>
    rw [record_stream_iterator_next, dif_pos hg, h2] at h
    injection h with hi hres
    subst hi
    exact next_record_progress base buf it it2 (next_record_result.ok d2) hg h2 (by simp)
  | case2 it hg it2 h2 ih =>
    rw [record_stream_iterator_next, dif_pos hg, h2] at h
    have h3 := next_record_progress base buf it it2 next_record_result.fail hg h2 (by decide)
    have := ih h
    omega
  | case3 it hg it2 h2 =>
    rw [record_stream_iterator_next, dif_pos hg, h2] at h
    cases h
  | case4 it hg =>
    rw [record_stream_iterator_next, dif_neg hg] at h
    cases h

/-- The sequence of records yielded by repeatedly calling
`record_stream_iterator_next` until it stops returning records. -/
def record_stream_records (base : Nat) (buf : List Nat)
    (it : crdb_record_stream_iterator) : List (List Nat) :=
  match h : record_stream_iterator_next base buf it with
  | (it', .ok decoded) => decoded :: record_stream_records base buf it'
  | _ => []
termination_by iter_measure it
decreasing_by
  exact next_ok_progress base buf it it' decoded h

/-- Candidate-level restatement of the scan: one `next_record` step per
unfolding.  Proved equal to `record_stream_records` below. -/
def record_stream_records_aux (base : Nat) (buf : List Nat)
    (it : crdb_record_stream_iterator) : List (List Nat) :=
  if hg : it.cursor < it.stop_at then
    match h2 : record_stream_iterator_next_record base buf it with
    | (it', .ok decoded) => decoded :: record_stream_records_aux base buf it'
    | (it', .fail) => record_stream_records_aux base buf it'
    | (_, .assert_violation) => []
  else []
termination_by iter_measure it
decreasing_by
  · exact next_record_progress base buf it it' (next_record_result.ok decoded) hg h2 (by simp)
  · exact next_record_progress base buf it it' next_record_result.fail hg h2 (by decide)

/-! ### Decoder robustness (claim C3) -/

theorem word_stuff_decode_loop_none (first_header : Bool) (src : List Nat)
    (h : decode_run_header first_header src = none) :
    word_stuff_decode_loop first_header src = none := by
  rw [word_stuff_decode_loop]
  split
  · rfl
  · rename_i run' tail' heq
    rw [h] at heq
    cases heq

theorem decode_run_header_src_length (first_header : Bool) (src : List Nat) (run : Nat)
    (tail : List Nat) (h : decode_run_header first_header src = some (run, tail)) :
    src.length = tail.length + (if first_header then 1 else 2) := by
  match first_header, src with
  | true, b0 :: t =>
    simp only [decode_run_header, Option.some.injEq, Prod.mk.injEq] at h
    simp [h.2.symm]
  | false, b0 :: b1 :: t =>
    simp only [decode_run_header, Option.some.injEq, Prod.mk.injEq] at h
    simp [h.2.symm]
  | true, [] => simp [decode_run_header] at h
  | false, [] => simp [decode_run_header] at h
  | false, [b] => simp [decode_run_header] at h

theorem word_stuff_decode_loop_length (first_header : Bool) (src : List Nat)
    (out : List Nat) (h : word_stuff_decode_loop first_header src = some out) :
    out.length + (if first_header then 1 else 2) ≤ src.length := by
  induction first_header, src using word_stuff_decode_loop.induct generalizing out with
  | case1 first src hnone =>
    rw [word_stuff_decode_loop_none first src hnone] at h
    cases h
  | case2 first src run tail hhd hbad =>
    rw [word_stuff_decode_loop_eq first src run tail hhd, if_pos hbad] at h
    cases h
  | case3 first src run tail hhd hbad hlt hdone =>
    rw [word_stuff_decode_loop_eq first src run tail hhd, if_neg hbad, if_pos hlt,
      if_pos hdone] at h
    injection h with hout
    have hsrc := decode_run_header_src_length first src run tail hhd
    simp only [List.length_drop] at hdone
    have : out.length = run ⊓ tail.length := by
      rw [← hout]
      simp
    simp only [not_or, not_lt] at hbad
    omega
  | case4 first src run tail hhd hbad hlt hne hshort =>
    rw [word_stuff_decode_loop_eq first src run tail hhd, if_neg hbad, if_pos hlt,
      if_neg hne, if_pos hshort] at h
    cases h
  | case5 first src run tail hhd hbad hlt hne hshort ih =>
    rw [word_stuff_decode_loop_eq first src run tail hhd, if_neg hbad, if_pos hlt,
      if_neg hne, if_neg hshort] at h
    cases hrec : word_stuff_decode_loop false (tail.drop run) with
    | none =>
      rw [hrec] at h
      cases h
    | some t =>
      rw [hrec, Option.map_some'] at h
      injection h with hout
      have hsrc := decode_run_header_src_length first src run tail hhd
      have hbound := ih t hrec
      simp only [not_or, not_lt] at hbad
      have hlen : out.length = run ⊓ tail.length + 2 + t.length := by
        rw [← hout]
        simp
        omega
      simp only [List.length_drop, if_neg Bool.false_ne_true] at hbound
      omega
  | case6 first src run tail hhd hbad hge ih =>
    rw [word_stuff_decode_loop_eq first src run tail hhd, if_neg hbad, if_neg hge] at h
    cases hrec : word_stuff_decode_loop false (tail.drop run) with
    | none =>
      rw [hrec] at h
      cases h
    | some t =>
      rw [hrec, Option.map_some'] at h
      injection h with hout
      have hsrc := decode_run_header_src_length first src run tail hhd
      have hbound := ih t hrec
      simp only [not_or, not_lt] at hbad
      have hlen : out.length = run ⊓ tail.length + t.length := by
        rw [← hout]
        simp
      simp only [List.length_drop, if_neg Bool.false_ne_true] at hbound
      omega

/-! ### Claim theorems C1, C2, C3 -/

/-- C1: for every byte string `s`, `crdb_word_stuff_decode` applied to
`crdb_word_stuff_encode s` succeeds and returns exactly `s`. -/
theorem crdb_word_stuff_decode_encode (s : List Nat) (hs : ∀ b ∈ s, b < 256) :
    crdb_word_stuff_decode (crdb_word_stuff_encode s) = some s :=
  word_stuff_decode_encode_loop true s

theorem crdb_word_stuff_decode_encode_witness :
    (∀ b ∈ ([254, 253, 65] : List Nat), b < 256) ∧
      crdb_word_stuff_decode (crdb_word_stuff_encode [254, 253, 65]) =
        some [254, 253, 65] :=
  ⟨by decide, crdb_word_stuff_decode_encode [254, 253, 65] (by decide)⟩

/-- C2: for every byte string `s`, the encoded output contains no occurrence
of the forbidden 2-byte sequence `0xFE 0xFD` at any (unaligned) offset;
equivalently, `crdb_word_stuff_header_find` applied to the encoded output
returns one past its last byte. -/
theorem crdb_word_stuff_encode_marker_free (s : List Nat) (hs : ∀ b ∈ s, b < 256) :
    (∀ j, ¬pair_at (crdb_word_stuff_encode s) j) ∧
      crdb_word_stuff_header_find (crdb_word_stuff_encode s) =
        (crdb_word_stuff_encode s).length := by
  have hnp := no_pair_encode_loop true s
  exact ⟨hnp, header_find_eq_length_of_no_pair _ hnp⟩

theorem crdb_word_stuff_encode_marker_free_witness :
    (∀ b ∈ ([254, 253, 65] : List Nat), b < 256) ∧
      ((∀ j, ¬pair_at (crdb_word_stuff_encode [254, 253, 65]) j) ∧
        crdb_word_stuff_header_find (crdb_word_stuff_encode [254, 253, 65]) =
          (crdb_word_stuff_encode [254, 253, 65]).length) :=
  ⟨by decide, crdb_word_stuff_encode_marker_free [254, 253, 65] (by decide)⟩

/-- C3: for every byte string `e`, arbitrary and possibly malformed,
`crdb_word_stuff_decode e` is a total function of the first `e.length`
bytes: it either fails or succeeds, and on success its output fits in
`e.length - 1` bytes (the decoder checks each run header and run against the
remaining input before consuming, so it never reads an index `≥ e.length`,
which in this embedding is enforced by construction: the decoder is a
function of the list `e` alone). -/
theorem crdb_word_stuff_decode_total_and_bounded (e : List Nat) :
    crdb_word_stuff_decode e = none ∨
      ∃ out, crdb_word_stuff_decode e = some out ∧ out.length + 1 ≤ e.length := by
  cases hd : crdb_word_stuff_decode e with
  | none => exact Or.inl rfl
  | some out =>
    refine Or.inr ⟨out, rfl, ?_⟩
    have := word_stuff_decode_loop_length true e out hd
    simpa using this

/-! ### CRC-32C facts (claims C5, C8) -/

theorem crc32c_round_lt (acc : Nat) (h : acc < 2 ^ 32) : crc32c_round acc < 2 ^ 32 := by
  unfold crc32c_round
  split
  · exact Nat.xor_lt_two_pow (by omega) (by norm_num [CRC32C_POLY_REFLECTED])
  · omega

theorem crc32c_rounds_lt (n acc : Nat) (h : acc < 2 ^ 32) :
    crc32c_rounds n acc < 2 ^ 32 := by
  induction n generalizing acc with
  | zero => exact h
  | succ n ih => exact ih _ (crc32c_round_lt acc h)

theorem mm_crc32_u8_lt (acc b : Nat) : mm_crc32_u8 acc b < 2 ^ 32 := by
  unfold mm_crc32_u8
  apply crc32c_rounds_lt
  exact Nat.xor_lt_two_pow (Nat.mod_lt _ (by norm_num)) (by
    have : b % 256 < 256 := Nat.mod_lt _ (by norm_num)
    omega)

theorem foldl_mm_crc32_u8_lt (l : List Nat) (acc : Nat) (h : acc < 2 ^ 32) :
    l.foldl mm_crc32_u8 acc < 2 ^ 32 := by
  induction l generalizing acc with
  | nil => exact h
  | cons b bs ih => exact ih _ (mm_crc32_u8_lt acc b)

set_option maxHeartbeats 1600000 in
theorem crc32c_loop_lt (acc : Nat) (l : List Nat) (h : acc < 2 ^ 32) :
    crc32c_loop acc l < 2 ^ 32 := by
  match l with
  | b0 :: b1 :: b2 :: b3 :: rest =>
    rw [crc32c_loop]
    exact crc32c_loop_lt _ rest (mm_crc32_u8_lt _ _)
  | [] => simpa [crc32c_loop] using h
  | [b0] => simpa [crc32c_loop] using mm_crc32_u8_lt acc b0
  | [b0, b1] => simpa [crc32c_loop] using mm_crc32_u8_lt _ b1
  | [b0, b1, b2] => simpa [crc32c_loop] using mm_crc32_u8_lt _ b2
termination_by l.length

theorem crdb_crc32c_lt (buf : List Nat) : crdb_crc32c buf < 2 ^ 32 :=
  crc32c_loop_lt 0 buf (by norm_num)

theorem read_u32_le32 (x : Nat) (h : x < 2 ^ 32) : read_u32 (le32 x) = x := by
  simp only [read_u32, le32, List.getD_cons_zero, List.getD_cons_succ]
  omega

theorem le32_take (x : Nat) (rest : List Nat) : (le32 x ++ rest).take 4 = le32 x := by
  simp [le32]

theorem le32_drop (x : Nat) (rest : List Nat) : (le32 x ++ rest).drop 4 = rest := by
  simp [le32]

/-! ### Claim C5: envelope round trip -/

/-- C5: packing an envelope (crc field set to all-ones, then generation,
then payload; CRC-32C over the whole; crc field overwritten with the
result) and verifying it succeeds and returns exactly the generation and
payload. -/
theorem envelope_pack_verify (generation : Nat) (data : List Nat)
    (hg : generation < 2 ^ 32) (hlen : data.length ≤ 512)
    (hb : ∀ b ∈ data, b < 256) :
    envelope_verify (envelope_pack generation data) = some (generation, data) := by
  have hcrc := crdb_crc32c_lt (le32 CRC_INITIAL_VALUE ++ le32 generation ++ data)
  unfold envelope_verify envelope_pack crc_matches
  rw [if_neg (by simp [le32])]
  rw [List.append_assoc (le32 (crdb_crc32c (le32 CRC_INITIAL_VALUE ++ le32 generation ++ data)))]
  rw [le32_take, le32_drop, read_u32_le32 _ hcrc]
  rw [← List.append_assoc (le32 CRC_INITIAL_VALUE)]
  rw [if_pos (by rw [beq_iff_eq])]
  rw [le32_take, read_u32_le32 _ hg]
  have hdrop8 : (le32 (crdb_crc32c (le32 CRC_INITIAL_VALUE ++ le32 generation ++ data)) ++
      (le32 generation ++ data)).drop 8 = data := by
    rw [show (8 : Nat) = 4 + 4 from rfl, ← List.drop_drop, le32_drop, le32_drop]
  rw [hdrop8]

theorem envelope_pack_verify_witness :
    (7 : Nat) < 2 ^ 32 ∧ ([104, 105] : List Nat).length ≤ 512 ∧
      (∀ b ∈ ([104, 105] : List Nat), b < 256) ∧
      envelope_verify (envelope_pack 7 [104, 105]) = some (7, [104, 105]) :=
  ⟨by norm_num, by decide, by decide,
    envelope_pack_verify 7 [104, 105] (by norm_num) (by decide) (by decide)⟩

/-! ### Claim C8: the CRC function's parameters -/

/-- C8 as stated is false on the code: `crdb_crc32c` starts its accumulator
at `0` (`record_stream.c:87`), not at `0xFFFFFFFF`; the all-ones value
enters only as the initial contents of the envelope's `crc` *field*.  On
the empty string the two sides differ. -/
theorem crdb_crc32c_ne_castagnoli_from_ones :
    crdb_crc32c [] ≠ castagnoli_crc32c_from 0xFFFFFFFF [] := by decide

set_option maxHeartbeats 1600000 in
theorem crc32c_loop_eq_foldl (acc : Nat) (l : List Nat) (hb : ∀ b ∈ l, b < 256) :
    crc32c_loop acc l = l.foldl mm_crc32_u8 acc := by
  induction acc, l using crc32c_loop.induct with
  | case1 acc b0 b1 b2 b3 rest ih =>
    rw [crc32c_loop]
    have h0 : b0 < 256 := hb b0 (by simp)
    have h1 : b1 < 256 := hb b1 (by simp)
    have h2 : b2 < 256 := hb b2 (by simp)
    have h3 : b3 < 256 := hb b3 (by simp)
    have hw : mm_crc32_u32 acc (b0 + 256 * b1 + 65536 * b2 + 16777216 * b3) =
        mm_crc32_u8 (mm_crc32_u8 (mm_crc32_u8 (mm_crc32_u8 acc b0) b1) b2) b3 := by
      unfold mm_crc32_u32
      have e0 : (b0 + 256 * b1 + 65536 * b2 + 16777216 * b3) % 256 = b0 := by omega
      have e1 : (b0 + 256 * b1 + 65536 * b2 + 16777216 * b3) / 256 % 256 = b1 := by omega
      have e2 : (b0 + 256 * b1 + 65536 * b2 + 16777216 * b3) / 65536 % 256 = b2 := by omega
      have e3 : (b0 + 256 * b1 + 65536 * b2 + 16777216 * b3) / 16777216 % 256 = b3 := by
        omega
      rw [e0, e1, e2, e3]
    rw [ih (by intro b hbm; exact hb b (by simp [hbm]))]
    rw [hw]
    simp
  | case2 acc rest hshape =>
    rw [crc32c_loop]
    · intro b0 b1 b2 b3 r hr
      exact hshape b0 b1 b2 b3 r hr

/-- C8 amended: `crdb_crc32c` computes the bit-reflected Castagnoli CRC-32C
(polynomial `0x1EDC6F41`, reflected form `0x82F63B78`) with *initial
accumulator `0`* and no final XOR; the value `0xFFFFFFFF` is not the CRC
accumulator's initial value but the placeholder stored in the envelope's
`crc` field before hashing. -/
theorem crdb_crc32c_eq_castagnoli_from_zero (buf : List Nat)
    (hb : ∀ b ∈ buf, b < 256) :
    crdb_crc32c buf = castagnoli_crc32c_from 0 buf :=
  crc32c_loop_eq_foldl 0 buf hb

theorem crdb_crc32c_eq_castagnoli_from_zero_witness :
    (∀ b ∈ ([1, 2, 3, 4, 5] : List Nat), b < 256) ∧
      crdb_crc32c [1, 2, 3, 4, 5] = castagnoli_crc32c_from 0 [1, 2, 3, 4, 5] :=
  ⟨by decide, crdb_crc32c_eq_castagnoli_from_zero [1, 2, 3, 4, 5] (by decide)⟩

/-! ### Claim C9: oversized appends are rejected without writing -/

/-- C9: for any file contents, generation and buffer longer than 512 bytes,
`crdb_record_stream_append_buf` returns an error and the file contents are
unchanged (the length check precedes any copy or write). -/
theorem crdb_record_stream_append_buf_rejects_oversize (file : List Nat)
    (generation : Nat) (buf : List Nat) (h : buf.length > 512) :
    crdb_record_stream_append_buf file generation buf = (false, file) := by
  unfold crdb_record_stream_append_buf
  rw [if_pos (by simpa [CRDB_RECORD_STREAM_MAX_LEN] using h)]

theorem crdb_record_stream_append_buf_rejects_oversize_witness :
    (List.replicate 513 (0 : Nat)).length > 512 ∧
      crdb_record_stream_append_buf [1, 2, 3] 7 (List.replicate 513 0) =
        (false, [1, 2, 3]) :=
  ⟨by rw [List.length_replicate]; norm_num,
    crdb_record_stream_append_buf_rejects_oversize [1, 2, 3] 7
      (List.replicate 513 0) (by rw [List.length_replicate]; norm_num)⟩

/-! ### Claim C4: every yielded record's CRC verifies -/

theorem next_record_core_ok (base : Nat) (buf : List Nat)
    (it it' : crdb_record_stream_iterator) (encoded_data : Nat) (decoded : List Nat)
    (h : next_record_core base buf it encoded_data = (it', next_record_result.ok decoded)) :
    8 ≤ decoded.length ∧ crc_matches decoded = true := by
  unfold next_record_core at h
  split at h
  · injection h with h1 h2
    cases h2
  · simp only at h
    split at h
    · injection h with h1 h2
      cases h2
    · split at h
      · injection h with h1 h2
        cases h2
      · rename_i decoded' hdec
        split at h
        · injection h with h1 h2
          cases h2
        · split at h
          · rename_i hlen8 hcrc
            injection h with h1 h2
            injection h2 with h3
            subst h3
            exact ⟨by omega, hcrc⟩
          · injection h with h1 h2
            cases h2

theorem next_record_ok_shape (base : Nat) (buf : List Nat)
    (it it' : crdb_record_stream_iterator) (decoded : List Nat)
    (h : record_stream_iterator_next_record base buf it = (it', next_record_result.ok decoded)) :
    8 ≤ decoded.length ∧ crc_matches decoded = true := by
  unfold record_stream_iterator_next_record at h
  split at h
  · exact next_record_core_ok _ _ _ _ _ _ h
  · simp only at h
    split at h
    · injection h with h1 h2
      cases h2
    · split at h
      · exact next_record_core_ok _ _ _ _ _ _ h
      · injection h with h1 h2
        cases h2

theorem next_ok_shape (base : Nat) (buf : List Nat)
    (it it' : crdb_record_stream_iterator) (decoded : List Nat)
    (h : record_stream_iterator_next base buf it = (it', next_result.ok decoded)) :
    8 ≤ decoded.length ∧ crc_matches decoded = true := by
  induction it using record_stream_iterator_next.induct base buf with
  | case1 it hg it2 d2 h2 =>
    rw [record_stream_iterator_next, dif_pos hg, h2] at h
    injection h with hi hres
    injection hres with hd
    subst hd
    exact next_record_ok_shape base buf it it2 d2 h2
  | case2 it hg it2 h2 ih =>
    rw [record_stream_iterator_next, dif_pos hg, h2] at h
    exact ih h
  | case3 it hg it2 h2 =>
    rw [record_stream_iterator_next, dif_pos hg, h2] at h
    cases h
  | case4 it hg =>
    rw [record_stream_iterator_next, dif_neg hg] at h
    cases h

/-- C4: every record the iterator's `next` operation emits has a verifying
CRC: the stored `crc` field (first four bytes of the decoded envelope)
equals CRC-32C over the envelope with the `crc` field reset to
`0xFFFFFFFF`.  Candidates that fail to decode, are too short, or fail the
checksum produce `fail` inside the loop and are never surfaced: the loop's
only outcomes are a verified record or end of stream (the `assert_violation`
outcome is reachable only through the post-end poisoned state covered by
claim C6). -/
theorem record_stream_iterator_next_crc_verified (base : Nat) (buf : List Nat)
    (it it' : crdb_record_stream_iterator) (decoded : List Nat)
    (h : record_stream_iterator_next base buf it = (it', next_result.ok decoded)) :
    8 ≤ decoded.length ∧
      read_u32 (decoded.take 4) =
        crdb_crc32c (le32 CRC_INITIAL_VALUE ++ decoded.drop 4) := by
  have hs := next_ok_shape base buf it it' decoded h
  refine ⟨hs.1, ?_⟩
  have := hs.2
  unfold crc_matches at this
  exact beq_iff_eq.mp this

set_option maxRecDepth 2048 in
set_option maxHeartbeats 1600000 in
theorem record_stream_iterator_next_crc_verified_witness :
    record_stream_iterator_next 0 [8, 205, 231, 146, 174, 1, 0, 0, 0, 254, 253]
        (crdb_record_stream_iterator_init_buf 0 11) =
      (⟨9, 11, 11, 0, 0, false, 0⟩, next_result.ok [205, 231, 146, 174, 1, 0, 0, 0]) ∧
    (8 ≤ ([205, 231, 146, 174, 1, 0, 0, 0] : List Nat).length ∧
      read_u32 (([205, 231, 146, 174, 1, 0, 0, 0] : List Nat).take 4) =
        crdb_crc32c (le32 CRC_INITIAL_VALUE ++
          ([205, 231, 146, 174, 1, 0, 0, 0] : List Nat).drop 4)) := by
  have hcm : crc_matches [205, 231, 146, 174, 1, 0, 0, 0] = true := by
    simp [crc_matches, read_u32, crdb_crc32c, crc32c_loop, mm_crc32_u32, mm_crc32_u8,
      crc32c_rounds, crc32c_round, CRC32C_POLY_REFLECTED, le32, CRC_INITIAL_VALUE]
  have hhf : crdb_word_stuff_header_find
      [8, 205, 231, 146, 174, 1, 0, 0, 0, 254, 253] = 9 := by decide
  have hdec : crdb_word_stuff_decode [8, 205, 231, 146, 174, 1, 0, 0, 0] =
      some [205, 231, 146, 174, 1, 0, 0, 0] := by
    simp [crdb_word_stuff_decode, word_stuff_decode_loop, decode_run_header,
      max_run_size, MAX_INITIAL_RUN, RADIX]
  have hnr : record_stream_iterator_next_record 0
      [8, 205, 231, 146, 174, 1, 0, 0, 0, 254, 253] ⟨0, 11, 11, 0, 0, true, 0⟩ =
      (⟨9, 11, 11, 0, 0, false, 0⟩,
        next_record_result.ok [205, 231, 146, 174, 1, 0, 0, 0]) := by
    simp [record_stream_iterator_next_record, next_record_core, header_find_at,
      mem_bytes, hhf, hdec, hcm, CRDB_RECORD_STREAM_BUF_LEN, CRDB_RECORD_STREAM_MAX_LEN]
  have h : record_stream_iterator_next 0 [8, 205, 231, 146, 174, 1, 0, 0, 0, 254, 253]
      (crdb_record_stream_iterator_init_buf 0 11) =
      (⟨9, 11, 11, 0, 0, false, 0⟩, next_result.ok [205, 231, 146, 174, 1, 0, 0, 0]) := by
    have hinit : crdb_record_stream_iterator_init_buf 0 11 =
        ⟨0, 11, 11, 0, 0, true, 0⟩ := rfl
    rw [hinit]
    exact next_eq_of_ok 0 _ _ _ _ (by norm_num) hnr
  exact ⟨h, record_stream_iterator_next_crc_verified 0 _ _ _ _ h⟩

/-! ### Claim C10: out-parameter and destination-buffer contract of
`crdb_record_stream_iterator_next_buf` -/

/-- C10: when `crdb_record_stream_iterator_next_buf` returns `false`
(end of stream), it has set `*generation = 0` and `*len = 0` and left the
caller's `dst` buffer untouched; when it returns `true`, `*generation` and
`*len` describe the yielded record (the generation field and payload size
of the decoded envelope) and exactly the first `*len` bytes of `dst` have
been overwritten with the payload, the rest being unchanged. -/
theorem crdb_record_stream_iterator_next_buf_frame (base : Nat) (buf : List Nat)
    (it it' : crdb_record_stream_iterator) (dst : List Nat) (ok : Bool)
    (generation len : Nat) (dst' : List Nat)
    (h : crdb_record_stream_iterator_next_buf base buf it dst =
      some (it', ok, generation, dst', len)) :
    (ok = false → generation = 0 ∧ len = 0 ∧ dst' = dst) ∧
    (ok = true → ∃ decoded,
      record_stream_iterator_next base buf it = (it', next_result.ok decoded) ∧
      8 ≤ decoded.length ∧
      generation = read_u32 ((decoded.drop 4).take 4) ∧
      len = (decoded.drop 8).length ∧
      dst'.take len = decoded.drop 8 ∧
      dst'.drop len = dst.drop len) := by
  unfold crdb_record_stream_iterator_next_buf at h
  split at h
  · rename_i it2 decoded heq
    injection h with htup
    injection htup with h1 htup
    injection htup with h2 htup
    injection htup with h3 htup
    injection htup with h4 h5
    subst h1
    subst h2
    subst h3
    subst h4
    subst h5
    constructor
    · intro hfalse
      cases hfalse
    · intro _
      have hsh := next_ok_shape _ _ _ _ _ heq
      refine ⟨decoded, heq, hsh.1, rfl, by simp, ?_, ?_⟩
      · rw [show decoded.length - 8 = (decoded.drop 8).length from by simp]
        exact List.take_left' rfl
      · rw [show decoded.length - 8 = (decoded.drop 8).length from by simp]
        rw [List.drop_left' rfl]
  · rename_i it2 heq
    injection h with htup
    injection htup with h1 htup
    injection htup with h2 htup
    injection htup with h3 htup
    injection htup with h4 h5
    subst h1
    subst h2
    subst h3
    subst h4
    subst h5
    constructor
    · intro _
      exact ⟨rfl, rfl, rfl⟩
    · intro htrue
      cases htrue
  · cases h

theorem crdb_record_stream_iterator_next_buf_frame_witness :
    crdb_record_stream_iterator_next_buf 1 [] (crdb_record_stream_iterator_init_buf 1 0)
        [9, 9] = some (⟨0, 0, 1, 1, 0, true, 1⟩, false, 0, [9, 9], 0) ∧
      ((0 : Nat) = 0 ∧ (0 : Nat) = 0 ∧ ([9, 9] : List Nat) = [9, 9]) := by
  have hend : record_stream_iterator_next 1 [] (crdb_record_stream_iterator_init_buf 1 0) =
      (⟨0, 0, 1, 1, 0, true, 1⟩, next_result.eof) := by
    have h0 := next_eq_of_stop 1 [] (crdb_record_stream_iterator_init_buf 1 0)
      (by norm_num [crdb_record_stream_iterator_init_buf])
    exact h0.trans (by rfl)
  have h : crdb_record_stream_iterator_next_buf 1 []
      (crdb_record_stream_iterator_init_buf 1 0) [9, 9] =
      some (⟨0, 0, 1, 1, 0, true, 1⟩, false, 0, [9, 9], 0) := by
    unfold crdb_record_stream_iterator_next_buf
    rw [hend]
  exact ⟨h, (crdb_record_stream_iterator_next_buf_frame 1 [] _ _ [9, 9] false 0 0 [9, 9]
    h).1 rfl⟩

/-! ### Claim C6: behaviour of `next` after end of stream

When the scan loop of `record_stream_iterator_next` exits, the C code sets
`it->cursor = NULL; it->end = NULL` but leaves `stop_at` pointing into the
buffer.  A subsequent call therefore re-enters the loop
(`NULL < it->stop_at`), finds `first_header = NULL` (the scan size
`end - cursor` is `0`), passes the `first_header >= it->stop_at` check
because `NULL` is below `stop_at`, computes
`encoded_data = NULL + CRDB_WORD_STUFF_HEADER_SIZE`, and violates the
code's own `assert(encoded_data <= it->end)` (with `NDEBUG`, it would go on
to compute `it->end - encoded_data` as a huge unsigned value and read far
out of bounds).  The following theorem runs the model on a one-byte buffer
at base address `1000`: the first call signals end of stream and poisons
the state; the second call reaches the assertion violation instead of
signalling end again. -/
theorem record_stream_iterator_next_after_end_hits_assert :
    record_stream_iterator_next 1000 [65] (crdb_record_stream_iterator_init_buf 1000 1) =
      (⟨0, 0, 1001, 1000, 1000, false, 1000⟩, next_result.eof) ∧
    (record_stream_iterator_next 1000 [65] ⟨0, 0, 1001, 1000, 1000, false, 1000⟩).2 =
      next_result.assert_violation := by
  have hnr1 : record_stream_iterator_next_record 1000 [65] ⟨1000, 1001, 1001, 1000, 0, true, 1000⟩ =
      (⟨1001, 1001, 1001, 1000, 1000, false, 1000⟩, next_record_result.fail) := by
    have hdec : crdb_word_stuff_decode [65] = none := by
      simp [crdb_word_stuff_decode, word_stuff_decode_loop, decode_run_header,
        max_run_size, MAX_INITIAL_RUN, RADIX]
    simp [record_stream_iterator_next_record, next_record_core, header_find_at,
      mem_bytes, crdb_word_stuff_header_find, hdec,
      CRDB_RECORD_STREAM_BUF_LEN, CRDB_RECORD_STREAM_MAX_LEN]
  have h1 : record_stream_iterator_next 1000 [65]
      (crdb_record_stream_iterator_init_buf 1000 1) =
      (⟨0, 0, 1001, 1000, 1000, false, 1000⟩, next_result.eof) := by
    have hinit : crdb_record_stream_iterator_init_buf 1000 1 =
        ⟨1000, 1001, 1001, 1000, 0, true, 1000⟩ := rfl
    rw [hinit]
    rw [next_eq_of_fail 1000 [65] _ _ (by norm_num) hnr1]
    have h0 := next_eq_of_stop 1000 [65] ⟨1001, 1001, 1001, 1000, 1000, false, 1000⟩
      (by norm_num)
    exact h0.trans (by rfl)
  have hnr2 : record_stream_iterator_next_record 1000 [65] ⟨0, 0, 1001, 1000, 1000, false, 1000⟩ =
      (⟨0, 0, 1001, 1000, 0, false, 1000⟩, next_record_result.assert_violation) := by
    simp [record_stream_iterator_next_record, next_record_core, header_find_at,
      mem_bytes, crdb_word_stuff_header_find, CRDB_WORD_STUFF_HEADER_SIZE]
  have h2 : record_stream_iterator_next 1000 [65] ⟨0, 0, 1001, 1000, 1000, false, 1000⟩ =
      (⟨0, 0, 1001, 1000, 0, false, 1000⟩, next_result.assert_violation) :=
    next_eq_of_assert 1000 [65] _ _ (by norm_num) hnr2
  exact ⟨h1, by rw [h2]⟩

/-! ### Claim C7: partitioning a stream with `stop_at` / `locate_at`

Infrastructure: during a scan over a buffer `buf` based at `base`, the
iterator states reachable from `crdb_record_stream_iterator_init_buf` all
have `endp = begin + buf.length`, `begin = first_nonzero = base`, and only
`cursor`, `stop_at`, `first_record` and `header` vary. -/

/-- A scan state over a `len`-byte buffer based at `base`. -/
def scan_state (base len c S : Nat) (fr : Bool) (hdr : Nat) :
    crdb_record_stream_iterator :=
  ⟨c, base + len, S, base, hdr, fr, base⟩

/-- The absolute position of the first forbidden sequence at or after
address `c`, scanning to the end of the buffer (the way every scan of
`record_stream_iterator_next_record` does), or `base + buf.length` if there
is none. -/
def findP (base : Nat) (buf : List Nat) (c : Nat) : Nat :=
  header_find_at base buf c (base + buf.length - c)

/-- The accept / reject decision for the candidate record whose encoded
bytes start at `encoded_data`, exactly as computed by `next_record_core`
once the `stop_at` check has passed; it depends only on the buffer, not on
`stop_at`. -/
def candidate_step (base : Nat) (buf : List Nat) (encoded_data : Nat) :
    next_record_result :=
  let next_header := header_find_at base buf encoded_data
    (base + buf.length - encoded_data)
  let encoded_len := next_header - encoded_data
  if encoded_len > CRDB_RECORD_STREAM_BUF_LEN then .fail
  else match crdb_word_stuff_decode (mem_bytes base buf encoded_data encoded_len) with
    | none => .fail
    | some decoded =>
      if decoded.length < 8 then .fail
      else if crc_matches decoded then .ok decoded
      else .fail

theorem candidate_step_ne_assert (base : Nat) (buf : List Nat) (encoded_data : Nat) :
    candidate_step base buf encoded_data ≠ next_record_result.assert_violation := by
  unfold candidate_step
  simp only
  split
  · simp
  · split
    · simp
    · split
      · simp
      · split
        · simp
        · simp

theorem mem_bytes_eq_drop (base : Nat) (buf : List Nat) (c : Nat) (hB : base ≤ c) :
    mem_bytes base buf c (base + buf.length - c) = buf.drop (c - base) := by
  unfold mem_bytes
  apply List.take_of_length_le
  simp only [List.length_drop]
  omega

theorem findP_ge (base : Nat) (buf : List Nat) (c : Nat) : c ≤ findP base buf c :=
  header_find_at_ge base buf c (base + buf.length - c)

theorem findP_le (base : Nat) (buf : List Nat) (c : Nat) (hc : c ≤ base + buf.length) :
    findP base buf c ≤ base + buf.length := by
  have := header_find_at_le base buf c (base + buf.length - c)
  unfold findP
  omega

theorem findP_found (base : Nat) (buf : List Nat) (c : Nat) (hB : base ≤ c)
    (h : findP base buf c < base + buf.length) :
    pair_at buf (findP base buf c - base) ∧ findP base buf c + 2 ≤ base + buf.length := by
  have hmb := mem_bytes_eq_drop base buf c hB
  unfold findP header_find_at at h ⊢
  rw [hmb] at h ⊢
  set k := crdb_word_stuff_header_find (buf.drop (c - base)) with hk
  have hlt : k < (buf.drop (c - base)).length := by
    simp only [List.length_drop]
    omega
  have hfound := header_find_found _ hlt
  rw [List.getElem?_drop, List.getElem?_drop] at hfound
  have h2 : c - base + (k + 1) = (c + k - base) + 1 := by omega
  have h1 : c - base + k = c + k - base := by omega
  rw [h1, h2] at hfound
  refine ⟨hfound, ?_⟩
  have := getElem?_some_lt hfound.2
  omega

theorem findP_min (base : Nat) (buf : List Nat) (c j : Nat) (hB : base ≤ c)
    (hcj : c ≤ j) (hj : j < findP base buf c) : ¬pair_at buf (j - base) := by
  have hmb := mem_bytes_eq_drop base buf c hB
  unfold findP header_find_at at hj
  rw [hmb] at hj
  have hmin := header_find_min (buf.drop (c - base)) (j - c) (by omega)
  rw [List.getElem?_drop, List.getElem?_drop] at hmin
  have h1 : c - base + (j - c) = j - base := by omega
  have h2 : c - base + (j - c + 1) = j - base + 1 := by omega
  rw [h1, h2] at hmin
  exact hmin

theorem pair_at_out (buf : List Nat) (j : Nat) (h : buf.length ≤ j) :
    ¬pair_at buf j := by
  intro hpair
  rcases hpair with ⟨ha, _⟩
  rw [List.getElem?_eq_none (by omega)] at ha
  cases ha

theorem findP_congr (base : Nat) (buf : List Nat) (x y : Nat) (hB : base ≤ x)
    (hxy : x ≤ y) (hyE : y ≤ base + buf.length)
    (hnp : ∀ j, x ≤ j → j < y → ¬pair_at buf (j - base)) :
    findP base buf x = findP base buf y := by
  rcases Nat.lt_or_ge (findP base buf x) (base + buf.length) with hx | hx
  · -- a pair exists at findP x; show it is also the first pair at or after y
    have hf := findP_found base buf x hB hx
    have hp : x ≤ findP base buf x := findP_ge base buf x
    have hyp : y ≤ findP base buf x := by
      by_contra hc
      exact hnp (findP base buf x) hp (by omega) hf.1
    have hle : findP base buf y ≤ findP base buf x := by
      by_contra hc
      exact findP_min base buf y (findP base buf x) (by omega) hyp (by omega) hf.1
    have hge : findP base buf x ≤ findP base buf y := by
      by_contra hc
      have hylt : findP base buf y < base + buf.length := by omega
      have hfy := findP_found base buf y (by omega) hylt
      have hyp2 : y ≤ findP base buf y := findP_ge base buf y
      exact findP_min base buf x (findP base buf y) hB (by omega) (by omega) hfy.1
    omega
  · -- no pair at or after x: the same holds at or after y
    have hxE : findP base buf x = base + buf.length := by
      have := findP_le base buf x (by omega)
      omega
    have hyE2 : findP base buf y = base + buf.length := by
      rcases Nat.lt_or_ge (findP base buf y) (base + buf.length) with hy | hy
      · exfalso
        have hfy := findP_found base buf y (by omega) hy
        have hyp : y ≤ findP base buf y := findP_ge base buf y
        exact findP_min base buf x (findP base buf y) hB (by omega) (by omega) hfy.1
      · have := findP_le base buf y hyE
        omega
  
    omega

theorem next_record_core_eq (base : Nat) (buf : List Nat)
    (it : crdb_record_stream_iterator) (encoded_data : Nat)
    (hh : it.header < it.stop_at) (he : it.endp = base + buf.length) :
    next_record_core base buf it encoded_data =
      ({ it with
          cursor := header_find_at base buf encoded_data (base + buf.length - encoded_data) },
        candidate_step base buf encoded_data) := by
  unfold next_record_core candidate_step
  rw [if_neg (by omega), he]
  simp only
  split
  · rfl
  · split
    · rfl
    · split
      · rfl
      · split
        · rfl
        · rfl

/-- One `next_record` step from a `first_record` state below `stop_at`:
the candidate's encoded bytes start at the cursor itself. -/
theorem nr_true_step (base : Nat) (buf : List Nat) (len c S hdr : Nat)
    (hlen : len = buf.length) (hc : c < S) :
    record_stream_iterator_next_record base buf (scan_state base len c S true hdr) =
      (scan_state base len (findP base buf c) S false c,
        candidate_step base buf c) := by
  subst hlen
  unfold record_stream_iterator_next_record
  rw [if_pos (by simp [scan_state])]
  simp only [scan_state]
  rw [next_record_core_eq base buf ⟨c, base + buf.length, S, base, c, false, base⟩ c
    (by simpa using hc) (by simp)]
  rfl

/-- One `next_record` step from a non-`first_record` state whose next
forbidden sequence lies at or past `stop_at`: the `goto eof` path. -/
theorem nr_false_eof (base : Nat) (buf : List Nat) (len c S hdr : Nat)
    (hlen : len = buf.length) (h : S ≤ findP base buf c) :
    record_stream_iterator_next_record base buf (scan_state base len c S false hdr) =
      (scan_state base len (base + len) S false hdr, next_record_result.fail) := by
  subst hlen
  have hfp : findP base buf c =
      header_find_at base buf c (base + buf.length - c) := rfl
  unfold record_stream_iterator_next_record
  rw [if_neg (by simp [scan_state])]
  simp only [scan_state]
  rw [if_pos (by rw [← hfp]; omega)]

/-- One `next_record` step from a non-`first_record` state whose next
forbidden sequence lies below `stop_at`: a candidate record starting two
bytes after that sequence. -/
theorem nr_false_step (base : Nat) (buf : List Nat) (len c S hdr : Nat)
    (hlen : len = buf.length) (hB : base ≤ c) (hf : findP base buf c < S)
    (hSE : S ≤ base + len) :
    record_stream_iterator_next_record base buf (scan_state base len c S false hdr) =
      (scan_state base len (findP base buf (findP base buf c + 2)) S false
          (findP base buf c),
        candidate_step base buf (findP base buf c + 2)) := by
  subst hlen
  have hfp : findP base buf c =
      header_find_at base buf c (base + buf.length - c) := rfl
  have hfound := findP_found base buf c hB (by omega)
  unfold record_stream_iterator_next_record
  rw [if_neg (by simp [scan_state])]
  simp only [scan_state]
  rw [if_neg (by rw [← hfp]; omega)]
  rw [if_pos (by
    rw [← hfp]
    show findP base buf c + CRDB_WORD_STUFF_HEADER_SIZE ≤ base + buf.length
    simp [CRDB_WORD_STUFF_HEADER_SIZE]
    omega)]
  rw [next_record_core_eq base buf
    ⟨c, base + buf.length, S, base,
      header_find_at base buf c (base + buf.length - c), false, base⟩
    (header_find_at base buf c (base + buf.length - c) + CRDB_WORD_STUFF_HEADER_SIZE)
    (by rw [← hfp]; simpa using hf) (by simp)]
  rw [← hfp]
  rfl

/-! Unfolding equations for `record_stream_records_aux`. -/

theorem records_aux_eq_stop (base : Nat) (buf : List Nat)
    (it : crdb_record_stream_iterator) (h : ¬it.cursor < it.stop_at) :
    record_stream_records_aux base buf it = [] := by
  rw [record_stream_records_aux, dif_neg h]

theorem records_aux_eq_ok (base : Nat) (buf : List Nat)
    (it it' : crdb_record_stream_iterator) (d : List Nat)
    (hg : it.cursor < it.stop_at)
    (h2 : record_stream_iterator_next_record base buf it =
      (it', next_record_result.ok d)) :
    record_stream_records_aux base buf it =
      d :: record_stream_records_aux base buf it' := by
  rw [record_stream_records_aux, dif_pos hg]
  split
  · rename_i it2 d2 heq
    rw [h2] at heq
    injection heq with ha hb
    injection hb with hc
    subst ha
    subst hc
    rfl
  · rename_i it2 heq
    rw [h2] at heq
    injection heq with ha hb
    cases hb
  · rename_i it2 heq
    rw [h2] at heq
    injection heq with ha hb
    cases hb

theorem records_aux_eq_fail (base : Nat) (buf : List Nat)
    (it it' : crdb_record_stream_iterator)
    (hg : it.cursor < it.stop_at)
    (h2 : record_stream_iterator_next_record base buf it =
      (it', next_record_result.fail)) :
    record_stream_records_aux base buf it =
      record_stream_records_aux base buf it' := by
  rw [record_stream_records_aux, dif_pos hg]
  split
  · rename_i it2 d2 heq
    rw [h2] at heq
    injection heq with ha hb
    cases hb
  · rename_i it2 heq
    rw [h2] at heq
    injection heq with ha hb
    subst ha
    rfl
  · rename_i it2 heq
    rw [h2] at heq
    injection heq with ha hb
    cases hb

/-- A scan from a non-`first_record` state whose next forbidden sequence
lies at or past `stop_at` yields nothing. -/
theorem records_aux_eof (base : Nat) (buf : List Nat) (c S hdr : Nat)
    (hS : S ≤ findP base buf c) (hSE : S ≤ base + buf.length) :
    record_stream_records_aux base buf
      (scan_state base buf.length c S false hdr) = [] := by
  by_cases hg : c < S
  · rw [records_aux_eq_fail base buf _ _ (by simpa [scan_state] using hg)
      (nr_false_eof base buf buf.length c S hdr rfl hS)]
    exact records_aux_eq_stop base buf _ (by simp [scan_state]; omega)
  · exact records_aux_eq_stop base buf _ (by simpa [scan_state] using hg)

/-- Scans from two non-`first_record` states with the same next forbidden
sequence (and arbitrary stale `header` fields) yield the same records. -/
theorem records_aux_congr (base : Nat) (buf : List Nat) (x y h1 h2 : Nat)
    (hBx : base ≤ x) (hBy : base ≤ y) (hxE : x ≤ base + buf.length)
    (hyE : y ≤ base + buf.length)
    (hf : findP base buf x = findP base buf y) :
    record_stream_records_aux base buf
        (scan_state base buf.length x (base + buf.length) false h1) =
      record_stream_records_aux base buf
        (scan_state base buf.length y (base + buf.length) false h2) := by
  rcases Nat.lt_or_ge (findP base buf x) (base + buf.length) with hfE | hfE
  · have hgx : x < base + buf.length := by
      have := findP_ge base buf x
      omega
    have hgy : y < base + buf.length := by
      have := findP_ge base buf y
      omega
    have hsx := nr_false_step base buf buf.length x (base + buf.length) h1 rfl hBx hfE
      (le_refl _)
    have hsy := nr_false_step base buf buf.length y (base + buf.length) h2 rfl hBy
      (by omega) (le_refl _)
    rw [hf] at hsx
    cases hcs : candidate_step base buf (findP base buf y + 2) with
    | ok d =>
      rw [records_aux_eq_ok base buf
        (scan_state base buf.length x (base + buf.length) false h1)
        (scan_state base buf.length (findP base buf (findP base buf y + 2))
          (base + buf.length) false (findP base buf y)) d
        (by simpa [scan_state] using hgx) (by rw [hsx, hcs])]
      rw [records_aux_eq_ok base buf
        (scan_state base buf.length y (base + buf.length) false h2)
        (scan_state base buf.length (findP base buf (findP base buf y + 2))
          (base + buf.length) false (findP base buf y)) d
        (by simpa [scan_state] using hgy) (by rw [hsy, hcs])]
    | fail =>
      rw [records_aux_eq_fail base buf
        (scan_state base buf.length x (base + buf.length) false h1)
        (scan_state base buf.length (findP base buf (findP base buf y + 2))
          (base + buf.length) false (findP base buf y))
        (by simpa [scan_state] using hgx) (by rw [hsx, hcs])]
      rw [records_aux_eq_fail base buf
        (scan_state base buf.length y (base + buf.length) false h2)
        (scan_state base buf.length (findP base buf (findP base buf y + 2))
          (base + buf.length) false (findP base buf y))
        (by simpa [scan_state] using hgy) (by rw [hsy, hcs])]
    | assert_violation => exact absurd hcs (candidate_step_ne_assert base buf _)
  · rw [records_aux_eof base buf x _ h1 hfE (le_refl _)]
    rw [records_aux_eof base buf y _ h2 (by omega) (le_refl _)]

/-! Unfolding equations for `record_stream_records`, and the bridge to
`record_stream_records_aux`. -/

theorem records_eq_ok (base : Nat) (buf : List Nat)
    (it it' : crdb_record_stream_iterator) (d : List Nat)
    (h : record_stream_iterator_next base buf it = (it', next_result.ok d)) :
    record_stream_records base buf it =
      d :: record_stream_records base buf it' := by
  rw [record_stream_records]
  split
  · rename_i it2 d2 heq
    rw [h] at heq
    injection heq with ha hb
    injection hb with hc
    subst ha
    subst hc
    rfl
  · rename_i heq
    rw [h] at heq
    exact absurd rfl (heq it' d)

theorem records_eq_none (base : Nat) (buf : List Nat)
    (it it' : crdb_record_stream_iterator) (r : next_result)
    (hr : ∀ d, r ≠ next_result.ok d)
    (h : record_stream_iterator_next base buf it = (it', r)) :
    record_stream_records base buf it = [] := by
  rw [record_stream_records]
  split
  · rename_i it2 d2 heq
    rw [h] at heq
    injection heq with ha hb
    exact absurd hb (hr d2)
  · rfl

theorem records_congr_next (base : Nat) (buf : List Nat)
    (it it₂ : crdb_record_stream_iterator)
    (h : record_stream_iterator_next base buf it =
      record_stream_iterator_next base buf it₂) :
    record_stream_records base buf it = record_stream_records base buf it₂ := by
  rcases hn : record_stream_iterator_next base buf it₂ with ⟨it', r⟩
  cases r with
  | ok d =>
    rw [records_eq_ok base buf it it' d (h.trans hn),
      records_eq_ok base buf it₂ it' d hn]
  | eof =>
    rw [records_eq_none base buf it it' _ (by simp) (h.trans hn),
      records_eq_none base buf it₂ it' _ (by simp) hn]
  | assert_violation =>
    rw [records_eq_none base buf it it' _ (by simp) (h.trans hn),
      records_eq_none base buf it₂ it' _ (by simp) hn]

theorem records_aux_eq_assert (base : Nat) (buf : List Nat)
    (it it' : crdb_record_stream_iterator)
    (hg : it.cursor < it.stop_at)
    (h2 : record_stream_iterator_next_record base buf it =
      (it', next_record_result.assert_violation)) :
    record_stream_records_aux base buf it = [] := by
  rw [record_stream_records_aux, dif_pos hg]
  split
  · rename_i it2 d2 heq
    rw [h2] at heq
    injection heq with ha hb
    cases hb
  · rename_i it2 heq
    rw [h2] at heq
    injection heq with ha hb
    cases hb
  · rfl

theorem records_eq_records_aux (base : Nat) (buf : List Nat)
    (it : crdb_record_stream_iterator) :
    record_stream_records base buf it = record_stream_records_aux base buf it := by
  by_cases hg : it.cursor < it.stop_at
  · rcases hnr : record_stream_iterator_next_record base buf it with ⟨it', r⟩
    cases r with
    | ok d =>
      rw [records_eq_ok base buf it it' d (next_eq_of_ok base buf it it' d hg hnr),
        records_aux_eq_ok base buf it it' d hg hnr,
        records_eq_records_aux base buf it']
    | fail =>
      rw [records_congr_next base buf it it' (next_eq_of_fail base buf it it' hg hnr),
        records_aux_eq_fail base buf it it' hg hnr]
      exact records_eq_records_aux base buf it'
    | assert_violation =>
      rw [records_eq_none base buf it it' _ (by simp)
          (next_eq_of_assert base buf it it' hg hnr),
        records_aux_eq_assert base buf it it' hg hnr]
  · rw [records_eq_none base buf it _ _ (by simp) (next_eq_of_stop base buf it hg),
      records_aux_eq_stop base buf it hg]
termination_by iter_measure it
decreasing_by
  · exact next_record_progress base buf it it' (next_record_result.ok d) hg hnr (by simp)
  · exact next_record_progress base buf it it' next_record_result.fail hg hnr (by decide)

/-- Scanning from cursor `c` with the stop bound clamped to `S`, then
scanning from `S` to the end of the buffer, yields the same records as a
single scan from `c` to the end, for non-`first_record` states: every
candidate record is classified by the buffer offset of its forbidden
sequence. -/
theorem stop_partition_false (base : Nat) (buf : List Nat) (c S h1 h2 : Nat)
    (hB : base ≤ c) (hcS : c ≤ S) (hSE : S ≤ base + buf.length) :
    record_stream_records_aux base buf
        (scan_state base buf.length c S false h1) ++
      record_stream_records_aux base buf
        (scan_state base buf.length S (base + buf.length) false h2) =
      record_stream_records_aux base buf
        (scan_state base buf.length c (base + buf.length) false h1) := by
  have hcf : c ≤ findP base buf c := findP_ge base buf c
  rcases Nat.lt_or_ge (findP base buf c) S with hf | hf
  · -- the next forbidden sequence is below `S`: both scans take the same
    -- candidate step
    have hcE : c < base + buf.length := by omega
    have hfound := findP_found base buf c hB (by omega)
    have hc2ge : findP base buf c + 2 ≤ findP base buf (findP base buf c + 2) :=
      findP_ge base buf _
    have hc2le : findP base buf (findP base buf c + 2) ≤ base + buf.length :=
      findP_le base buf _ (by omega)
    have hsx := nr_false_step base buf buf.length c S h1 rfl hB hf hSE
    have hsw := nr_false_step base buf buf.length c (base + buf.length) h1 rfl hB
      (by omega) (le_refl _)
    have htail :
        record_stream_records_aux base buf
            (scan_state base buf.length (findP base buf (findP base buf c + 2)) S false
              (findP base buf c)) ++
          record_stream_records_aux base buf
            (scan_state base buf.length S (base + buf.length) false h2) =
        record_stream_records_aux base buf
            (scan_state base buf.length (findP base buf (findP base buf c + 2))
              (base + buf.length) false (findP base buf c)) := by
      rcases le_or_lt (findP base buf (findP base buf c + 2)) S with hc2S | hc2S
      · exact stop_partition_false base buf (findP base buf (findP base buf c + 2)) S
          (findP base buf c) h2 (by omega) hc2S hSE
      · rw [records_aux_eq_stop base buf _ (by simp [scan_state]; omega),
          List.nil_append]
        have hnp : ∀ j, S ≤ j → j < findP base buf (findP base buf c + 2) →
            ¬pair_at buf (j - base) := by
          intro j hSj hjc2
          rcases Nat.lt_or_ge j (findP base buf c + 2) with hj2 | hj2
          · -- only j = findP c + 1 is possible here, and its byte is the
            -- second byte of the forbidden sequence, not the first
            have hj1 : j = findP base buf c + 1 := by omega
            intro hpair
            have hsnd := hfound.1.2
            have harith : findP base buf c - base + 1 = j - base := by omega
            rw [harith] at hsnd
            have hfst := hpair.1
            rw [hsnd] at hfst
            injection hfst with he
            simp [RADIX] at he
          · exact findP_min base buf (findP base buf c + 2) j (by omega) hj2 hjc2
        have hfeq := findP_congr base buf S (findP base buf (findP base buf c + 2))
          (by omega) (by omega) hc2le hnp
        exact records_aux_congr base buf S (findP base buf (findP base buf c + 2))
          h2 (findP base buf c) (by omega) (by omega) hSE hc2le hfeq
    cases hcs : candidate_step base buf (findP base buf c + 2) with
    | ok d =>
      rw [records_aux_eq_ok base buf (scan_state base buf.length c S false h1)
          (scan_state base buf.length (findP base buf (findP base buf c + 2)) S false
            (findP base buf c)) d
          (by simpa [scan_state] using (show c < S by omega)) (by rw [hsx, hcs]),
        records_aux_eq_ok base buf
          (scan_state base buf.length c (base + buf.length) false h1)
          (scan_state base buf.length (findP base buf (findP base buf c + 2))
            (base + buf.length) false (findP base buf c)) d
          (by simpa [scan_state] using hcE) (by rw [hsw, hcs]),
        List.cons_append, htail]
    | fail =>
      rw [records_aux_eq_fail base buf (scan_state base buf.length c S false h1)
          (scan_state base buf.length (findP base buf (findP base buf c + 2)) S false
            (findP base buf c))
          (by simpa [scan_state] using (show c < S by omega)) (by rw [hsx, hcs]),
        records_aux_eq_fail base buf
          (scan_state base buf.length c (base + buf.length) false h1)
          (scan_state base buf.length (findP base buf (findP base buf c + 2))
            (base + buf.length) false (findP base buf c))
          (by simpa [scan_state] using hcE) (by rw [hsw, hcs])]
      exact htail
    | assert_violation => exact absurd hcs (candidate_step_ne_assert base buf _)
  · -- no forbidden sequence below `S`: the clamped scan is empty and the
    -- two full scans agree from `c` and from `S`
    rw [records_aux_eof base buf c S h1 hf hSE, List.nil_append]
    have hnp : ∀ j, c ≤ j → j < S → ¬pair_at buf (j - base) := by
      intro j hcj hjS
      exact findP_min base buf c j hB hcj (by omega)
    have hfeq := findP_congr base buf c S hB hcS hSE hnp
    exact records_aux_congr base buf S c h2 h1 (by omega) hB hSE (by omega) hfeq.symm
termination_by base + buf.length - c
decreasing_by
  omega

/-- Partitioning from the start of the stream: a `first_record` scan of
`[base, S)` followed by a scan of `[S, end)` yields the records of the
whole stream. -/
theorem stop_partition_true (base : Nat) (buf : List Nat) (S h2 : Nat)
    (hBS : base < S) (hSE : S ≤ base + buf.length) :
    record_stream_records_aux base buf
        (scan_state base buf.length base S true 0) ++
      record_stream_records_aux base buf
        (scan_state base buf.length S (base + buf.length) false h2) =
      record_stream_records_aux base buf
        (scan_state base buf.length base (base + buf.length) true 0) := by
  have hfb : base ≤ findP base buf base := findP_ge base buf base
  have hfble : findP base buf base ≤ base + buf.length :=
    findP_le base buf base (by omega)
  have hsx := nr_true_step base buf buf.length base S 0 rfl hBS
  have hsw := nr_true_step base buf buf.length base (base + buf.length) 0 rfl (by omega)
  have htail :
      record_stream_records_aux base buf
          (scan_state base buf.length (findP base buf base) S false base) ++
        record_stream_records_aux base buf
          (scan_state base buf.length S (base + buf.length) false h2) =
      record_stream_records_aux base buf
          (scan_state base buf.length (findP base buf base) (base + buf.length)
            false base) := by
    rcases le_or_lt (findP base buf base) S with hc1S | hc1S
    · exact stop_partition_false base buf (findP base buf base) S base h2 hfb hc1S hSE
    · rw [records_aux_eq_stop base buf _ (by simp [scan_state]; omega),
        List.nil_append]
      have hnp : ∀ j, S ≤ j → j < findP base buf base → ¬pair_at buf (j - base) := by
        intro j hSj hjf
        exact findP_min base buf base j (le_refl _) (by omega) hjf
      have hfeq := findP_congr base buf S (findP base buf base) (by omega) (by omega)
        hfble hnp
      exact records_aux_congr base buf S (findP base buf base) h2 base (by omega)
        hfb hSE hfble hfeq
  cases hcs : candidate_step base buf base with
  | ok d =>
    rw [records_aux_eq_ok base buf (scan_state base buf.length base S true 0)
        (scan_state base buf.length (findP base buf base) S false base) d
        (by simpa [scan_state] using hBS) (by rw [hsx, hcs]),
      records_aux_eq_ok base buf
        (scan_state base buf.length base (base + buf.length) true 0)
        (scan_state base buf.length (findP base buf base) (base + buf.length)
          false base) d
        (by simpa [scan_state] using (show base < base + buf.length by omega))
        (by rw [hsw, hcs]),
      List.cons_append, htail]
  | fail =>
    rw [records_aux_eq_fail base buf (scan_state base buf.length base S true 0)
        (scan_state base buf.length (findP base buf base) S false base)
        (by simpa [scan_state] using hBS) (by rw [hsx, hcs]),
      records_aux_eq_fail base buf
        (scan_state base buf.length base (base + buf.length) true 0)
        (scan_state base buf.length (findP base buf base) (base + buf.length)
          false base)
        (by simpa [scan_state] using (show base < base + buf.length by omega))
        (by rw [hsw, hcs])]
    exact htail
  | assert_violation => exact absurd hcs (candidate_step_ne_assert base buf _)

/-- C7: for every stream buffer and split offset `o` up to the buffer
size, `crdb_record_stream_iterator_locate_at` succeeds, and the records
yielded by a fresh iterator clamped with `crdb_record_stream_iterator_stop_at o`,
followed by the records of a fresh iterator repositioned with `locate_at o`,
are exactly the records of iterating the whole stream: each record falls
in exactly one half, classified by the address of its first byte. -/
theorem record_stream_partition (base : Nat) (buf : List Nat) (o : Nat)
    (ho : o ≤ buf.length) :
    (crdb_record_stream_iterator_locate_at
        (crdb_record_stream_iterator_init_buf base buf.length) o).1 = true ∧
    record_stream_records base buf
        (crdb_record_stream_iterator_stop_at
          (crdb_record_stream_iterator_init_buf base buf.length) o) ++
      record_stream_records base buf
        (crdb_record_stream_iterator_locate_at
          (crdb_record_stream_iterator_init_buf base buf.length) o).2 =
      record_stream_records base buf
        (crdb_record_stream_iterator_init_buf base buf.length) := by
  have hstop : crdb_record_stream_iterator_stop_at
      (crdb_record_stream_iterator_init_buf base buf.length) o =
      scan_state base buf.length base (base + o) true 0 := by
    unfold crdb_record_stream_iterator_stop_at crdb_record_stream_iterator_init_buf
    split
    · rename_i hgt
      exfalso
      simp at hgt
      omega
    · rfl
  rcases Nat.eq_zero_or_pos o with rfl | hpos
  · have hloc : crdb_record_stream_iterator_locate_at
        (crdb_record_stream_iterator_init_buf base buf.length) 0 =
        (true, crdb_record_stream_iterator_init_buf base buf.length) := by
      unfold crdb_record_stream_iterator_locate_at crdb_record_stream_iterator_init_buf
      split
      · rename_i hcond
        exfalso
        simp at hcond
      · split
        · rfl
        · rename_i hne
          exfalso
          simp at hne
    have hl1 : (crdb_record_stream_iterator_locate_at
        (crdb_record_stream_iterator_init_buf base buf.length) 0).1 = true := by
      rw [hloc]
    have hl2 : (crdb_record_stream_iterator_locate_at
        (crdb_record_stream_iterator_init_buf base buf.length) 0).2 =
        crdb_record_stream_iterator_init_buf base buf.length := by
      rw [hloc]
    refine ⟨hl1, ?_⟩
    rw [hl2, hstop,
      records_eq_records_aux base buf (scan_state base buf.length base (base + 0) true 0),
      records_aux_eq_stop base buf _ (by simp [scan_state]),
      List.nil_append]
  · have hloc : crdb_record_stream_iterator_locate_at
        (crdb_record_stream_iterator_init_buf base buf.length) o =
        (true, scan_state base buf.length (base + o) (base + buf.length) false 0) := by
      unfold crdb_record_stream_iterator_locate_at crdb_record_stream_iterator_init_buf
      split
      · rename_i hcond
        exfalso
        simp at hcond
        omega
      · split
        · rename_i heq
          exfalso
          simp at heq
          omega
        · rfl
    have hl1 : (crdb_record_stream_iterator_locate_at
        (crdb_record_stream_iterator_init_buf base buf.length) o).1 = true := by
      rw [hloc]
    have hl2 : (crdb_record_stream_iterator_locate_at
        (crdb_record_stream_iterator_init_buf base buf.length) o).2 =
        scan_state base buf.length (base + o) (base + buf.length) false 0 := by
      rw [hloc]
    refine ⟨hl1, ?_⟩
    rw [hl2, hstop,
      records_eq_records_aux base buf (scan_state base buf.length base (base + o) true 0),
      records_eq_records_aux base buf
        (scan_state base buf.length (base + o) (base + buf.length) false 0),
      records_eq_records_aux base buf (crdb_record_stream_iterator_init_buf base buf.length)]
    exact stop_partition_true base buf (base + o) 0 (by omega) (by omega)

theorem record_stream_partition_witness :
    (3 : Nat) ≤ [0, 65, 66, 67, 0].length ∧
    ((crdb_record_stream_iterator_locate_at
        (crdb_record_stream_iterator_init_buf 1000 [0, 65, 66, 67, 0].length) 3).1 = true ∧
    record_stream_records 1000 [0, 65, 66, 67, 0]
        (crdb_record_stream_iterator_stop_at
          (crdb_record_stream_iterator_init_buf 1000 [0, 65, 66, 67, 0].length) 3) ++
      record_stream_records 1000 [0, 65, 66, 67, 0]
        (crdb_record_stream_iterator_locate_at
          (crdb_record_stream_iterator_init_buf 1000 [0, 65, 66, 67, 0].length) 3).2 =
      record_stream_records 1000 [0, 65, 66, 67, 0]
        (crdb_record_stream_iterator_init_buf 1000 [0, 65, 66, 67, 0].length)) :=
  ⟨by decide, record_stream_partition 1000 [0, 65, 66, 67, 0] 3 (by decide)⟩
